import Mathlib

/-!
Verification of the duplicate/similarity detection engine of the
image-de-clutter repository (`src/image_processing/duplicate_detector.py`),
as a shallow embedding in Lean 4.

Modelling conventions:
* Python `dict`s that map image paths to fingerprints are modelled as ordered
  association lists `List (String × _)`; iteration order of a Python dict is
  insertion order, which the association list preserves.
* The Python `set` `assigned_images` is modelled as `Finset String`.
* Machine floats are idealised: the similarity values flowing through the
  grouping pass are `ℚ`, and the cosine-similarity computation of
  `CNNFeatureExtractor.compute_similarity` (which needs square roots) is
  modelled over `ℝ`.
* `float("inf")` returned by `hamming_distance` is modelled as `⊤ : ℕ∞`.
* The cooperative cancellation flag `self._cancelled` is set asynchronously by
  `cancel_detection` and is monotone (never cleared during a run).  It is
  modelled by a schedule `t : Option ℕ`: the n-th read of the flag (reads are
  counted by a counter threaded through the loops, one read per loop
  iteration) returns `true` iff `t = some n₀` with `n₀ ≤ n`.  `t = none` is
  the run during which the flag is never set.
* Image decoding/resizing (PIL) and file-system metadata are external I/O:
  hash functions take the decoded, resized, grayscale pixel rows as input,
  and `_get_image_info`'s `file_size`/`modified_time`/`dimensions` fields
  (read from the file system, used by no claim) are omitted from `ImageInfo`.
-/

/-! ## PerceptualHasher.hamming_distance (lines 196-214)

`bin(xor).count("1")` is a population count; we model it by a fuel-based
structural recursion (`fuel ≥ n` suffices, and `popcount` passes `n` itself)
so that concrete instances reduce in the kernel. -/

/-- Population count worker: `popcountFuel fuel n` is the number of set bits
of `n`, provided `n ≤ fuel`. -/
def popcountFuel : ℕ → ℕ → ℕ
  | _, 0 => 0
  | 0, _ + 1 => 0
  | fuel + 1, n + 1 => (n + 1) % 2 + popcountFuel fuel ((n + 1) / 2)

/-- Number of `1` bits in the binary representation of `n`; models Python
`bin(n).count("1")` for a nonnegative `n`. -/
def popcount (n : ℕ) : ℕ := popcountFuel n n

/-- Value of one hexadecimal digit, as accepted by Python `int(c, 16)`
(code points of `0`-`9`, `a`-`f`, `A`-`F`).  Characters that are not
hexadecimal digits make Python `int` raise `ValueError`; they are given the
junk value `0` here, and every claim about `hamming_distance` is scoped to
well-formed hexadecimal fingerprints. -/
def hexCharVal (c : Char) : ℕ :=
  if 48 ≤ c.toNat ∧ c.toNat ≤ 57 then c.toNat - 48
  else if 97 ≤ c.toNat ∧ c.toNat ≤ 102 then c.toNat - 87
  else if 65 ≤ c.toNat ∧ c.toNat ≤ 70 then c.toNat - 55
  else 0

/-- `int(s, 16)` on a hexadecimal string: left-to-right accumulation of
digit values. -/
def int16 (s : String) : ℕ :=
  s.data.foldl (fun acc c => 16 * acc + hexCharVal c) 0

/-- A well-formed hexadecimal fingerprint string: nonempty (every fingerprint
emitted by `dhash`/`ahash` is nonempty) and made of hexadecimal digits. -/
def IsHexString (s : String) : Prop :=
  s ≠ "" ∧ ∀ c ∈ s.data, (c.isDigit ∨ ('a' ≤ c ∧ c ≤ 'f') ∨ ('A' ≤ c ∧ c ≤ 'F'))

instance (s : String) : Decidable (IsHexString s) := by
  unfold IsHexString; infer_instance

/-- `PerceptualHasher.hamming_distance`: length mismatch returns the
`float("inf")` sentinel (modelled `⊤ : ℕ∞`), otherwise the number of
differing bits of the two hexadecimal values. -/
def hamming_distance (hash1 hash2 : String) : ℕ∞ :=
  if hash1.length ≠ hash2.length then ⊤
  else (popcount (int16 hash1 ^^^ int16 hash2) : ℕ)

/-! ### Arithmetic facts about `popcount` and `int16` -/

theorem popcountFuel_le {fuel n k : ℕ} (hf : n ≤ fuel) (hn : n < 2 ^ k) :
    popcountFuel fuel n ≤ k := by
  induction fuel generalizing n k with
  | zero =>
    interval_cases n
    · simp [popcountFuel]
  | succ fuel ih =>
    match n with
    | 0 => simp [popcountFuel]
    | n + 1 =>
      have hk : 0 < k := by
        by_contra h
        simp only [Nat.not_lt, Nat.le_zero] at h
        subst h
        omega
      obtain ⟨k', rfl⟩ : ∃ k', k = k' + 1 := ⟨k - 1, by omega⟩
      have hdiv : (n + 1) / 2 < 2 ^ k' := by
        have : n + 1 < 2 ^ (k' + 1) := hn
        rw [pow_succ] at this
        omega
      have hfuel : (n + 1) / 2 ≤ fuel := by omega
      have := ih hfuel hdiv
      have hmod : (n + 1) % 2 ≤ 1 := Nat.le_of_lt_succ (Nat.mod_lt _ (by norm_num))
      simp only [popcountFuel]
      omega

theorem popcount_le {n k : ℕ} (hn : n < 2 ^ k) : popcount n ≤ k :=
  popcountFuel_le le_rfl hn

@[simp] theorem popcount_zero : popcount 0 = 0 := rfl

theorem hexCharVal_lt (c : Char) : hexCharVal c < 16 := by
  unfold hexCharVal
  split
  · omega
  · split
    · omega
    · split
      · omega
      · omega

theorem int16_foldl_lt (l : List Char) (acc : ℕ) :
    l.foldl (fun acc c => 16 * acc + hexCharVal c) acc < (acc + 1) * 16 ^ l.length := by
  induction l generalizing acc with
  | nil =>
    simp only [List.foldl_nil, List.length_nil, pow_zero, Nat.mul_one]
    exact Nat.lt_succ_self acc
  | cons c l ih =>
    simp only [List.foldl_cons, List.length_cons]
    calc l.foldl (fun acc c => 16 * acc + hexCharVal c) (16 * acc + hexCharVal c)
        < (16 * acc + hexCharVal c + 1) * 16 ^ l.length := ih _
      _ ≤ ((acc + 1) * 16) * 16 ^ l.length := by
          have := hexCharVal_lt c
          have : 16 * acc + hexCharVal c + 1 ≤ (acc + 1) * 16 := by omega
          exact Nat.mul_le_mul_right _ this
      _ = (acc + 1) * 16 ^ (l.length + 1) := by ring

theorem int16_lt (s : String) : int16 s < 16 ^ s.length := by
  have h := int16_foldl_lt s.data 0
  rw [Nat.zero_add, Nat.one_mul] at h
  exact h

theorem xor_lt_two_pow {x y k : ℕ} (hx : x < 2 ^ k) (hy : y < 2 ^ k) :
    x ^^^ y < 2 ^ k := by
  apply Nat.lt_pow_two_of_testBit
  intro i hi
  have hxk : x < 2 ^ i := lt_of_lt_of_le hx (Nat.pow_le_pow_right (by norm_num) hi)
  have hyk : y < 2 ^ i := lt_of_lt_of_le hy (Nat.pow_le_pow_right (by norm_num) hi)
  rw [Nat.testBit_xor, Nat.testBit_lt_two_pow hxk, Nat.testBit_lt_two_pow hyk]
  rfl

/-- C7: `hamming_distance` never raises on hexadecimal fingerprints, and:
different lengths give the `+∞` sentinel (never a match); equal lengths of
bit-width `W = 4 · length` give the population count of the XOR of the two
values, which lies in `[0, W]`; identical strings give `0`. -/
theorem hamming_distance_spec (hash1 hash2 : String)
    (_hx1 : IsHexString hash1) (_hx2 : IsHexString hash2) :
    (hash1.length ≠ hash2.length → hamming_distance hash1 hash2 = ⊤) ∧
    (hash1.length = hash2.length →
      hamming_distance hash1 hash2 = (popcount (int16 hash1 ^^^ int16 hash2) : ℕ) ∧
      hamming_distance hash1 hash2 ≤ (4 * hash1.length : ℕ)) ∧
    (hash1 = hash2 → hamming_distance hash1 hash2 = 0) := by
  refine ⟨fun hne => by simp [hamming_distance, hne], fun heq => ?_, fun heq => ?_⟩
  · have hval : hamming_distance hash1 hash2 =
        (popcount (int16 hash1 ^^^ int16 hash2) : ℕ) := by
      simp [hamming_distance, heq]
    refine ⟨hval, ?_⟩
    rw [hval]
    have h16 : (16 : ℕ) ^ hash1.length = 2 ^ (4 * hash1.length) := by
      rw [show (16 : ℕ) = 2 ^ 4 from rfl, ← pow_mul]
    have hx : int16 hash1 < 2 ^ (4 * hash1.length) := h16 ▸ int16_lt hash1
    have hy : int16 hash2 < 2 ^ (4 * hash1.length) := by
      rw [heq]
      calc int16 hash2 < 16 ^ hash2.length := int16_lt hash2
        _ = 2 ^ (4 * hash2.length) := by
            rw [show (16 : ℕ) = 2 ^ 4 from rfl, ← pow_mul]
    have := popcount_le (xor_lt_two_pow hx hy)
    exact_mod_cast this
  · subst heq
    simp [hamming_distance, Nat.xor_self]

/-- Witness for C7 at the concrete fingerprints `"a3"` and `"a1"`
(`0xa3 XOR 0xa1 = 2`, one differing bit, bit-width 8). -/
theorem hamming_distance_spec_witness :
    IsHexString "a3" ∧ IsHexString "a1" ∧
    (hamming_distance "a3" "a1" = (1 : ℕ) ∧ hamming_distance "a3" "a1" ≤ (8 : ℕ)) := by
  refine ⟨by decide, by decide, ?_⟩
  have h := (hamming_distance_spec "a3" "a1" (by decide) (by decide)).2.1 (by decide)
  exact ⟨by rw [h.1]; decide, by simpa using h.2⟩

/-! ## PerceptualHasher.dhash (lines 113-156)

Decoding the image, converting to grayscale and resizing to
`(hash_size + 1) × hash_size` with LANCZOS resampling is external I/O done by
PIL; the embedding takes as input the resulting row-major list of grayscale
pixel values (`pixels = list(img.getdata())`, length
`hash_size * (hash_size + 1)`), which is a pure function of the image file,
so fingerprint determinism is inherited.  Python indexing `pixels[i]` is
modelled by `List.getD _ 0`; for a pixel list of the correct size every index
used is in bounds. -/

/-- `format(n, "x")` without padding: minimal lowercase hexadecimal digits of
`n`, most significant first.  Fuel-based so concrete instances reduce in the
kernel (`fuel ≥ n` suffices). -/
def toHexFuel : ℕ → ℕ → List Char
  | _, 0 => []
  | 0, _ + 1 => []
  | fuel + 1, n + 1 =>
    toHexFuel fuel ((n + 1) / 16) ++
      [if (n + 1) % 16 < 10 then Char.ofNat (48 + (n + 1) % 16)
       else Char.ofNat (87 + (n + 1) % 16)]

/-- Minimal lowercase hexadecimal string of `n` (`"0"` for `0`). -/
def natToHexStr (n : ℕ) : String :=
  if n = 0 then "0" else String.mk (toHexFuel n n)

/-- Python `format(n, f"0{width}x")`: minimal hexadecimal representation,
left-padded with `0` to at least `width` characters. -/
def pyFormatHex (n width : ℕ) : String :=
  String.mk (List.replicate (width - (natToHexStr n).length) '0') ++ natToHexStr n

/-- `hash_int` accumulation of `dhash`/`ahash`: bit `i` of the result is the
`i`-th element of the bit list (`hash_int |= 1 << i`). -/
def bitsToNat (bs : List Bool) : ℕ :=
  bs.foldr (fun b acc => (if b then 1 else 0) + 2 * acc) 0

/-- The `hash_size * hash_size` adjacent-pixel comparisons of
`PerceptualHasher.dhash`, row-major: for row `r` and column `c` the bit is
`pixels[r * (hash_size + 1) + c] > pixels[r * (hash_size + 1) + c + 1]`. -/
def dhashBits (pixels : List ℕ) (hash_size : ℕ) : List Bool :=
  (List.range hash_size).flatMap fun row =>
    (List.range hash_size).map fun col =>
      decide (pixels.getD (row * (hash_size + 1) + col) 0 >
        pixels.getD (row * (hash_size + 1) + col + 1) 0)

/-- `PerceptualHasher.dhash` on the decoded, resized pixel list:
`format(hash_int, f"0{len(hash_bits)//4}x")`. -/
def dhash (pixels : List ℕ) (hash_size : ℕ) : String :=
  pyFormatHex (bitsToNat (dhashBits pixels hash_size)) (hash_size * hash_size / 4)

/-! ### Facts about hexadecimal rendering and bit packing -/

theorem toHexFuel_length_le {fuel n k : ℕ} (hf : n ≤ fuel) (hn : n < 16 ^ k) :
    (toHexFuel fuel n).length ≤ k := by
  induction fuel generalizing n k with
  | zero =>
    interval_cases n
    · simp [toHexFuel]
  | succ fuel ih =>
    match n with
    | 0 => simp [toHexFuel]
    | n + 1 =>
      have hk : 0 < k := by
        by_contra h
        simp only [Nat.not_lt, Nat.le_zero] at h
        subst h
        simp at hn
      obtain ⟨k', rfl⟩ : ∃ k', k = k' + 1 := ⟨k - 1, by omega⟩
      have hdiv : (n + 1) / 16 < 16 ^ k' := by
        have : n + 1 < 16 ^ (k' + 1) := hn
        rw [pow_succ] at this
        omega
      have := ih (by omega : (n + 1) / 16 ≤ fuel) hdiv
      simp only [toHexFuel, List.length_append, List.length_cons, List.length_nil]
      omega

theorem natToHexStr_length_le {n k : ℕ} (hk : 1 ≤ k) (hn : n < 16 ^ k) :
    (natToHexStr n).length ≤ k := by
  by_cases h : n = 0
  · subst h
    simpa [natToHexStr] using hk
  · have := toHexFuel_length_le (le_refl n) hn
    simpa [natToHexStr, h, String.length] using this

theorem pyFormatHex_length {n width : ℕ} (h : (natToHexStr n).length ≤ width) :
    (pyFormatHex n width).length = width := by
  simp only [pyFormatHex, String.length_append, String.length_mk,
    List.length_replicate]
  omega

theorem bitsToNat_lt (bs : List Bool) : bitsToNat bs < 2 ^ bs.length := by
  induction bs with
  | nil => simp [bitsToNat]
  | cons b bs ih =>
    simp only [bitsToNat, List.foldr_cons, List.length_cons] at *
    rw [pow_succ]
    cases b <;> simp <;> omega

theorem bitsToNat_testBit (bs : List Bool) (i : ℕ) :
    (bitsToNat bs).testBit i = bs.getD i false := by
  induction bs generalizing i with
  | nil => simp [bitsToNat]
  | cons b bs ih =>
    match i with
    | 0 =>
      simp only [bitsToNat, List.foldr_cons, Nat.testBit_zero, List.getD_cons_zero]
      cases b <;> simp <;> omega
    | i + 1 =>
      simp only [bitsToNat, List.foldr_cons, Nat.testBit_add_one, List.getD_cons_succ]
      have harith : ((if b then 1 else 0) + 2 * bs.foldr (fun b acc => (if b then 1 else 0) + 2 * acc) 0) / 2 =
          bs.foldr (fun b acc => (if b then 1 else 0) + 2 * acc) 0 := by
        cases b <;> simp <;> omega
      rw [harith]
      exact ih i

theorem length_flatMap_const {α β : Type} (l : List α) (f : α → List β) (n : ℕ)
    (h : ∀ a ∈ l, (f a).length = n) : (l.flatMap f).length = l.length * n := by
  induction l with
  | nil => simp
  | cons a l ih =>
    simp only [List.flatMap_cons, List.length_append, List.length_cons]
    rw [h a (by simp), ih (fun b hb => h b (by simp [hb]))]
    ring

theorem flatMap_range_map_getD {β : Type} [Inhabited β] (g : ℕ → ℕ → β)
    (m n r c : ℕ) (hr : r < m) (hc : c < n) :
    ((List.range m).flatMap fun i => (List.range n).map (g i)).getD (r * n + c)
      default = g r c := by
  have hsplit : m = (r + 1) + (m - (r + 1)) := by omega
  rw [hsplit, List.range_add, List.flatMap_append, List.range_succ,
    List.flatMap_append]
  have hlenA : ((List.range r).flatMap fun i => (List.range n).map (g i)).length
      = r * n :=
    length_flatMap_const _ _ n (fun a _ => by simp) |>.trans (by simp)
  rw [List.append_assoc, List.getD_append_right _ _ _ _ (by omega), hlenA]
  have hidx : r * n + c - r * n = c := by omega
  rw [hidx]
  simp only [List.flatMap_cons, List.flatMap_nil, List.append_nil]
  rw [List.getD_append _ _ _ _ (by simpa using hc)]
  rw [List.getD_eq_getElem _ _ (by simpa using hc)]
  simp

theorem dhashBits_length (pixels : List ℕ) (hash_size : ℕ) :
    (dhashBits pixels hash_size).length = hash_size * hash_size := by
  unfold dhashBits
  rw [length_flatMap_const _ _ hash_size (fun a _ => by simp)]
  simp

theorem dhashBits_getD (pixels : List ℕ) (hash_size r c : ℕ)
    (hr : r < hash_size) (hc : c < hash_size) :
    (dhashBits pixels hash_size).getD (r * hash_size + c) false =
      decide (pixels.getD (r * (hash_size + 1) + c) 0 >
        pixels.getD (r * (hash_size + 1) + c + 1) 0) := by
  unfold dhashBits
  exact flatMap_range_map_getD
    (fun row col => decide (pixels.getD (row * (hash_size + 1) + col) 0 >
      pixels.getD (row * (hash_size + 1) + col + 1) 0))
    hash_size hash_size r c hr hc

/-- C6 (amended): for every decoded pixel list and every positive *even*
hash size, bit `i = r * size + c` of the difference hash integer is set
exactly when `pixel(r, c) > pixel(r, c + 1)` in row-major order, and the
rendered hexadecimal string has exactly `size * size / 4` characters.
(The claim's "every hash size" fails for odd sizes, see the counterexample:
for `size = 1` the rendered string has 1 character, not `1 * 1 / 4 = 0`.) -/
theorem dhash_spec (pixels : List ℕ) (hash_size : ℕ)
    (hpos : 0 < hash_size) (heven : 2 ∣ hash_size) :
    (dhash pixels hash_size).length = hash_size * hash_size / 4 ∧
    ∀ r c, r < hash_size → c < hash_size →
      (bitsToNat (dhashBits pixels hash_size)).testBit (r * hash_size + c) =
        decide (pixels.getD (r * (hash_size + 1) + c) 0 >
          pixels.getD (r * (hash_size + 1) + c + 1) 0) := by
  constructor
  · obtain ⟨k, rfl⟩ := heven
    have hk : 0 < k := by omega
    have hdvd : 2 * k * (2 * k) = 4 * (2 * k * (2 * k) / 4) := by
      rw [show 2 * k * (2 * k) = 4 * (k * k) by ring]
      omega
    have hlt : bitsToNat (dhashBits pixels (2 * k)) < 16 ^ (2 * k * (2 * k) / 4) := by
      have h1 := bitsToNat_lt (dhashBits pixels (2 * k))
      rw [dhashBits_length] at h1
      calc bitsToNat (dhashBits pixels (2 * k)) < 2 ^ (2 * k * (2 * k)) := h1
        _ = 16 ^ (2 * k * (2 * k) / 4) := by
            rw [show (16 : ℕ) = 2 ^ 4 from rfl, ← pow_mul, ← hdvd]
    have hw : 1 ≤ 2 * k * (2 * k) / 4 := by
      have : 4 ≤ 2 * k * (2 * k) := by nlinarith
      omega
    exact pyFormatHex_length (natToHexStr_length_le hw hlt)
  · intro r c hr hc
    rw [bitsToNat_testBit, dhashBits_getD pixels hash_size r c hr hc]

/-- Witness for C6 (amended) at hash size 2 and the concrete `3 × 2` pixel
list `[10, 5, 7, 1, 2, 3]`: the fingerprint is 1 hex character long
(`2 * 2 / 4 = 1`) and bit 0 records `10 > 5`. -/
theorem dhash_spec_witness :
    0 < 2 ∧ (2 : ℕ) ∣ 2 ∧
    (dhash [10, 5, 7, 1, 2, 3] 2).length = 2 * 2 / 4 ∧
    (bitsToNat (dhashBits [10, 5, 7, 1, 2, 3] 2)).testBit (0 * 2 + 0) =
      decide ((10 : ℕ) > 5) := by
  have h := dhash_spec [10, 5, 7, 1, 2, 3] 2 (by decide) (by decide)
  exact ⟨by decide, by decide, h.1, by simpa using h.2 0 0 (by decide) (by decide)⟩

/-- C6 counterexample: at hash size 1 (pixels `[5, 3]`, one comparison,
`hash_bits = [True]`), the rendered string is `"1"` of length 1, while the
claimed fixed width `size * size / 4` is `0`; so the length clause of the
claim fails for odd hash sizes. -/
theorem dhash_hex_width_cex :
    (dhash [5, 3] 1).length = 1 ∧ 1 * 1 / 4 = 0 := by decide

/-! ## DuplicateGroup (lines 217-262) and the image-info dictionaries

`DuplicateDetector._get_image_info` builds a dict with `path`, `hash`,
`file_size`, `modified_time` and `dimensions`; the last three are read from
the file system (external I/O) and no claim mentions them, so `ImageInfo`
keeps only the fields the detector's logic reads and writes: `path`, `hash`,
and the two keys added by `find_cnn_duplicates` (`cnn_features`,
`similarity_to_group`). -/

structure ImageInfo where
  path : String
  hash : Option String
  cnn_features : Option (List ℚ) := none
  similarity_to_group : Option ℚ := none
deriving DecidableEq

/-- `DuplicateGroup._get_confidence_level`. -/
def confidenceLevel (similarity_score : ℚ) : String :=
  if similarity_score ≥ 0.95 then "high"
  else if similarity_score ≥ 0.85 then "medium"
  else "low"

structure DuplicateGroup where
  group_id : String
  algorithm : String
  similarity_score : ℚ
  images : List ImageInfo
  representative_hash : Option String
  confidence_level : String
deriving DecidableEq

namespace DuplicateGroup

/-- `DuplicateGroup.__init__(group_id, algorithm, similarity_score)`;
the Python default for `similarity_score` is `1.0`. -/
def init (group_id algorithm : String) (similarity_score : ℚ) : DuplicateGroup :=
  { group_id := group_id
    algorithm := algorithm
    similarity_score := similarity_score
    images := []
    representative_hash := none
    confidence_level := confidenceLevel similarity_score }

/-- `DuplicateGroup.add_image`: appends the image and, while the
representative hash is still unset, adopts the new image's `hash` value. -/
def add_image (g : DuplicateGroup) (image_info : ImageInfo) : DuplicateGroup :=
  { g with
    images := g.images ++ [image_info]
    representative_hash :=
      match g.representative_hash with
      | none => image_info.hash
      | some h => some h }

/-- `DuplicateGroup.get_size`. -/
def get_size (g : DuplicateGroup) : ℕ := g.images.length

/-- Member paths of a group, in insertion order. -/
def paths (g : DuplicateGroup) : List String := g.images.map ImageInfo.path

end DuplicateGroup

/-! ## The cooperative cancellation flag -/

/-- One read of `self._cancelled`: under schedule `t`, the read with index
`c` (reads are numbered from 0, one per loop iteration) returns `true` iff
the flag was set before that read, i.e. `t = some n` with `n ≤ c`.  The
flag is monotone: once a read returns `true`, all later reads do. -/
def cancelledAt (t : Option ℕ) (c : ℕ) : Bool :=
  match t with
  | none => false
  | some n => decide (n ≤ c)

/-! ## DuplicateDetector.find_duplicates (lines 374-436)

The inner `for j in range(i + 1, len(image_paths))` loop over the seed
`path1` is `findDupScan`; the outer loop is `findDupOuter`.  The group id
computed at group creation, `f"group_{len(duplicate_groups)}"`, is passed
into the scan as `gid`, since `duplicate_groups` does not change during one
scan.  The read counter `c` is threaded through both loops (one flag read
per iteration of either loop, as in the Python code). -/

def findDupScan (similarity_threshold : ℕ) (algorithm : String)
    (path1 hash1 gid : String) :
    List (String × String) → Finset String → Option DuplicateGroup →
      Option ℕ → ℕ → Option DuplicateGroup × Finset String × ℕ
  | [], assigned, grp, _, c => (grp, assigned, c)
  | (path2, hash2) :: rest, assigned, grp, t, c =>
    if cancelledAt t c then (grp, assigned, c)
    else if path2 ∈ assigned then
      findDupScan similarity_threshold algorithm path1 hash1 gid rest assigned grp t (c + 1)
    else if hamming_distance hash1 hash2 ≤ (similarity_threshold : ℕ∞) then
      match grp with
      | none =>
        let g0 := DuplicateGroup.init gid algorithm 1
        let g1 := g0.add_image { path := path1, hash := some hash1 }
        let g2 := g1.add_image { path := path2, hash := some hash2 }
        findDupScan similarity_threshold algorithm path1 hash1 gid rest
          (insert path2 (insert path1 assigned)) (some g2) t (c + 1)
      | some g =>
        findDupScan similarity_threshold algorithm path1 hash1 gid rest
          (insert path2 assigned)
          (some (g.add_image { path := path2, hash := some hash2 })) t (c + 1)
    else
      findDupScan similarity_threshold algorithm path1 hash1 gid rest assigned grp t (c + 1)

def findDupOuter (similarity_threshold : ℕ) (algorithm : String) :
    List (String × String) → Finset String → List DuplicateGroup →
      Option ℕ → ℕ → List DuplicateGroup
  | [], _, duplicate_groups, _, _ => duplicate_groups
  | (path1, hash1) :: rest, assigned, duplicate_groups, t, c =>
    if cancelledAt t c then duplicate_groups
    else if path1 ∈ assigned then
      findDupOuter similarity_threshold algorithm rest assigned duplicate_groups t (c + 1)
    else
      let gid := "group_" ++ toString duplicate_groups.length
      let res := findDupScan similarity_threshold algorithm path1 hash1 gid
        rest assigned none t (c + 1)
      let groups' :=
        match res.1 with
        | some g => if 1 < g.get_size then duplicate_groups ++ [g] else duplicate_groups
        | none => duplicate_groups
      findDupOuter similarity_threshold algorithm rest res.2.1 groups' t res.2.2

/-- `DuplicateDetector.find_duplicates` under cancellation schedule `t`. -/
def find_duplicates (similarity_threshold : ℕ) (algorithm : String)
    (t : Option ℕ) (hashes : List (String × String)) : List DuplicateGroup :=
  findDupOuter similarity_threshold algorithm hashes ∅ [] t 0

/-! ## DuplicateDetector.find_cnn_duplicates (lines 438-517)

Same loop skeleton as `find_duplicates`, with the pairwise test
`self.cnn_extractor.compute_similarity(features1, features2) >=
self.cnn_similarity_threshold`.  The similarity function is a parameter
`sim` here (its concrete implementation, `compute_similarity`, involves
square roots and is modelled separately over `ℝ`; the grouping pass is
verified for an arbitrary similarity oracle, of which the real one is an
instance under the float-to-rational idealisation).  `sims` is the running
`group_similarities` list of the seed's scan. -/

def findCnnScan (sim : List ℚ → List ℚ → ℚ) (cnn_similarity_threshold : ℚ)
    (path1 : String) (features1 : List ℚ) (gid : String) :
    List (String × List ℚ) → Finset String → Option DuplicateGroup → List ℚ →
      Option ℕ → ℕ → Option DuplicateGroup × List ℚ × Finset String × ℕ
  | [], assigned, grp, sims, _, c => (grp, sims, assigned, c)
  | (path2, features2) :: rest, assigned, grp, sims, t, c =>
    if cancelledAt t c then (grp, sims, assigned, c)
    else if path2 ∈ assigned then
      findCnnScan sim cnn_similarity_threshold path1 features1 gid rest
        assigned grp sims t (c + 1)
    else
      let similarity := sim features1 features2
      if cnn_similarity_threshold ≤ similarity then
        match grp with
        | none =>
          let g0 := DuplicateGroup.init gid "cnn" similarity
          let g1 := g0.add_image
            { path := path1, hash := none, cnn_features := some features1,
              similarity_to_group := some 1 }
          let g2 := g1.add_image
            { path := path2, hash := none, cnn_features := some features2,
              similarity_to_group := some similarity }
          findCnnScan sim cnn_similarity_threshold path1 features1 gid rest
            (insert path2 (insert path1 assigned)) (some g2)
            (sims ++ [similarity]) t (c + 1)
        | some g =>
          findCnnScan sim cnn_similarity_threshold path1 features1 gid rest
            (insert path2 assigned)
            (some (g.add_image
              { path := path2, hash := none, cnn_features := some features2,
                similarity_to_group := some similarity }))
            (sims ++ [similarity]) t (c + 1)
      else
        findCnnScan sim cnn_similarity_threshold path1 features1 gid rest
          assigned grp sims t (c + 1)

def findCnnOuter (sim : List ℚ → List ℚ → ℚ) (cnn_similarity_threshold : ℚ) :
    List (String × List ℚ) → Finset String → List DuplicateGroup →
      Option ℕ → ℕ → List DuplicateGroup
  | [], _, duplicate_groups, _, _ => duplicate_groups
  | (path1, features1) :: rest, assigned, duplicate_groups, t, c =>
    if cancelledAt t c then duplicate_groups
    else if path1 ∈ assigned then
      findCnnOuter sim cnn_similarity_threshold rest assigned duplicate_groups t (c + 1)
    else
      let gid := "cnn_group_" ++ toString duplicate_groups.length
      let res := findCnnScan sim cnn_similarity_threshold path1 features1 gid
        rest assigned none [] t (c + 1)
      let groups' :=
        match res.1 with
        | some g =>
          if 1 < g.get_size then
            duplicate_groups ++
              [if res.2.1.isEmpty then g
               else
                 let avg := res.2.1.sum / (res.2.1.length : ℚ)
                 { g with similarity_score := avg,
                          confidence_level := confidenceLevel avg }]
          else duplicate_groups
        | none => duplicate_groups
      findCnnOuter sim cnn_similarity_threshold rest res.2.2.1 groups' t res.2.2.2

/-- `DuplicateDetector.find_cnn_duplicates` under cancellation schedule `t`
(the function first returns `[]` when `use_cnn` is off or the feature
mapping is empty). -/
def find_cnn_duplicates (use_cnn : Bool) (sim : List ℚ → List ℚ → ℚ)
    (cnn_similarity_threshold : ℚ) (t : Option ℕ)
    (cnn_features : List (String × List ℚ)) : List DuplicateGroup :=
  if !use_cnn || cnn_features.isEmpty then []
  else findCnnOuter sim cnn_similarity_threshold cnn_features ∅ [] t 0

/-! ### Loop invariants of the hash grouping pass -/

/-- Invariant carried by the inner scan of `find_duplicates` for the seed
`path1`: whenever a group has been formed it has the id computed at
creation, the constructor-default score `1.0` with its derived confidence,
at least two members, and all member paths are in the live `assigned` set
but not in the `baseline` set (the `assigned_images` value at the start of
the seed's scan). -/
def dupScanInv (gid alg : String) (baseline assigned : Finset String)
    (grp : Option DuplicateGroup) : Prop :=
  ∀ g, grp = some g →
    g.group_id = gid ∧ g.algorithm = alg ∧ g.similarity_score = 1 ∧
    g.confidence_level = confidenceLevel 1 ∧ 2 ≤ g.get_size ∧
    ∀ p ∈ g.paths, p ∈ assigned ∧ p ∉ baseline

theorem findDupScan_inv (thr : ℕ) (alg path1 hash1 gid : String)
    (rest : List (String × String)) (baseline : Finset String) :
    ∀ (assigned : Finset String) (grp : Option DuplicateGroup)
      (t : Option ℕ) (c : ℕ)
      (grp' : Option DuplicateGroup) (assigned' : Finset String) (c' : ℕ),
      baseline ⊆ assigned →
      (grp = none → path1 ∉ baseline) →
      dupScanInv gid alg baseline assigned grp →
      findDupScan thr alg path1 hash1 gid rest assigned grp t c =
        (grp', assigned', c') →
      assigned ⊆ assigned' ∧ dupScanInv gid alg baseline assigned' grp' := by
  induction rest with
  | nil =>
    intro assigned grp t c grp' assigned' c' hbase hp1 hinv heq
    simp only [findDupScan, Prod.mk.injEq] at heq
    obtain ⟨rfl, rfl, rfl⟩ := heq
    exact ⟨le_refl _, hinv⟩
  | cons q rest ih =>
    intro assigned grp t c grp' assigned' c' hbase hp1 hinv heq
    obtain ⟨path2, hash2⟩ := q
    simp only [findDupScan] at heq
    by_cases hcan : cancelledAt t c
    · rw [if_pos hcan] at heq
      simp only [Prod.mk.injEq] at heq
      obtain ⟨rfl, rfl, rfl⟩ := heq
      exact ⟨le_refl _, hinv⟩
    · rw [if_neg hcan] at heq
      by_cases hmem : path2 ∈ assigned
      · rw [if_pos hmem] at heq
        exact ih assigned grp t (c + 1) grp' assigned' c' hbase hp1 hinv heq
      · rw [if_neg hmem] at heq
        by_cases hdist : hamming_distance hash1 hash2 ≤ (thr : ℕ∞)
        · rw [if_pos hdist] at heq
          match grp, hp1, hinv with
          | none, hp1, _ =>
            simp only at heq
            have hp1b : path1 ∉ baseline := hp1 rfl
            have hsub : assigned ⊆ insert path2 (insert path1 assigned) := by
              intro x hx; simp [hx]
            refine (ih _ _ t (c + 1) grp' assigned' c'
              (hbase.trans hsub) (by simp) ?_ heq).imp_left hsub.trans
            intro g hg
            cases hg
            refine ⟨rfl, rfl, rfl, rfl, by simp [DuplicateGroup.get_size,
              DuplicateGroup.add_image, DuplicateGroup.init], ?_⟩
            intro p hp
            simp only [DuplicateGroup.paths, DuplicateGroup.add_image,
              DuplicateGroup.init, List.map_append, List.map_cons] at hp
            simp only [List.nil_append, List.map_nil, List.append_nil,
              List.mem_append, List.mem_singleton, List.mem_cons,
              List.not_mem_nil, or_false] at hp
            rcases hp with rfl | rfl
            · exact ⟨by simp, hp1b⟩
            · exact ⟨by simp, fun hb => hmem (hbase hb)⟩
          | some g, _, hinv =>
            simp only at heq
            have hsub : assigned ⊆ insert path2 assigned := by
              intro x hx; simp [hx]
            refine (ih _ _ t (c + 1) grp' assigned' c'
              (hbase.trans hsub) (by simp) ?_ heq).imp_left hsub.trans
            intro g2 hg2
            cases hg2
            obtain ⟨h1, h2, h3, h4, h5, h6⟩ := hinv g rfl
            refine ⟨h1, h2, h3, h4, ?_, ?_⟩
            · simp only [DuplicateGroup.get_size, DuplicateGroup.add_image,
                List.length_append, List.length_cons, List.length_nil]
              simp only [DuplicateGroup.get_size] at h5
              omega
            · intro p hp
              simp only [DuplicateGroup.paths, DuplicateGroup.add_image,
                List.map_append, List.map_cons, List.map_nil,
                List.mem_append, List.mem_cons, List.not_mem_nil,
                or_false] at hp
              rcases hp with hp | rfl
              · obtain ⟨ha, hb⟩ := h6 p hp
                exact ⟨by simp [ha], hb⟩
              · exact ⟨by simp, fun hb => hmem (hbase hb)⟩
        · rw [if_neg hdist] at heq
          exact ih assigned grp t (c + 1) grp' assigned' c' hbase hp1 hinv heq

/-- Invariant of the outer loop of `find_duplicates`: every accumulated
group has ≥ 2 members, the default score `1.0` with confidence derived
from it, member paths contained in `assigned`, and the groups are pairwise
path-disjoint. -/
def dupOuterInv (assigned : Finset String) (groups : List DuplicateGroup) : Prop :=
  (∀ g ∈ groups,
    2 ≤ g.get_size ∧ g.similarity_score = 1 ∧
    g.confidence_level = confidenceLevel 1 ∧ ∀ p ∈ g.paths, p ∈ assigned) ∧
  groups.Pairwise (fun g h => ∀ p ∈ g.paths, p ∉ h.paths)

theorem dupOuterInv_mono {assigned assigned' : Finset String}
    {groups : List DuplicateGroup} (hsub : assigned ⊆ assigned')
    (h : dupOuterInv assigned groups) : dupOuterInv assigned' groups := by
  refine ⟨fun g hg => ?_, h.2⟩
  obtain ⟨h1, h2, h3, h4⟩ := h.1 g hg
  exact ⟨h1, h2, h3, fun p hp => hsub (h4 p hp)⟩

theorem findDupOuter_inv (thr : ℕ) (alg : String)
    (l : List (String × String)) :
    ∀ (assigned : Finset String) (groups : List DuplicateGroup)
      (t : Option ℕ) (c : ℕ),
      dupOuterInv assigned groups →
      (∀ g ∈ findDupOuter thr alg l assigned groups t c,
        2 ≤ g.get_size ∧ g.similarity_score = 1 ∧
        g.confidence_level = confidenceLevel 1) ∧
      (findDupOuter thr alg l assigned groups t c).Pairwise
        (fun g h => ∀ p ∈ g.paths, p ∉ h.paths) := by
  induction l with
  | nil =>
    intro assigned groups t c hinv
    exact ⟨fun g hg => ⟨(hinv.1 g hg).1, (hinv.1 g hg).2.1, (hinv.1 g hg).2.2.1⟩,
      hinv.2⟩
  | cons q rest ih =>
    intro assigned groups t c hinv
    obtain ⟨path1, hash1⟩ := q
    simp only [findDupOuter]
    by_cases hcan : cancelledAt t c
    · rw [if_pos hcan]
      exact ⟨fun g hg => ⟨(hinv.1 g hg).1, (hinv.1 g hg).2.1, (hinv.1 g hg).2.2.1⟩,
        hinv.2⟩
    · rw [if_neg hcan]
      by_cases hmem : path1 ∈ assigned
      · rw [if_pos hmem]
        exact ih assigned groups t (c + 1) hinv
      · rw [if_neg hmem]
        rcases hscan : findDupScan thr alg path1 hash1
            ("group_" ++ toString groups.length) rest assigned none t (c + 1)
          with ⟨grp', assigned', c'⟩
        have hscaninv := findDupScan_inv thr alg path1 hash1
          ("group_" ++ toString groups.length) rest assigned assigned none t
          (c + 1) grp' assigned' c' (le_refl _) (fun _ => hmem)
          (fun g hg => by cases hg) hscan
        obtain ⟨hsub, hinv'⟩ := hscaninv
        cases grp' with
        | none =>
          dsimp only
          exact ih assigned' groups t c' (dupOuterInv_mono hsub hinv)
        | some g =>
          dsimp only
          obtain ⟨hgid, halg, hscore, hconf, hsize, hpaths⟩ := hinv' g rfl
          rw [if_pos (by omega : 1 < g.get_size)]
          refine ih assigned' (groups ++ [g]) t c' ⟨?_, ?_⟩
          · intro h hh
            rcases List.mem_append.mp hh with hh | hh
            · obtain ⟨h1, h2, h3, h4⟩ := hinv.1 h hh
              exact ⟨h1, h2, h3, fun p hp => hsub (h4 p hp)⟩
            · rcases List.mem_singleton.mp hh with rfl
              exact ⟨hsize, hscore, hconf, fun p hp => (hpaths p hp).1⟩
          · rw [List.pairwise_append]
            refine ⟨hinv.2, List.pairwise_singleton _ _, ?_⟩
            intro a ha b hb p hp
            rcases List.mem_singleton.mp hb with rfl
            intro hpb
            exact (hpaths p hpb).2 ((hinv.1 a ha).2.2.2 p hp)

/-! ### Loop invariants of the feature (cnn) grouping pass -/

/-- The seed-to-member similarities recorded for the non-seed members of a
group: every member after the founding seed carries `similarity_to_group`. -/
def memberSims (g : DuplicateGroup) : List ℚ :=
  (g.images.drop 1).filterMap ImageInfo.similarity_to_group

/-- Invariant of the inner scan of `find_cnn_duplicates`: the running
`group_similarities` list is exactly the recorded `similarity_to_group`
values of the non-seed members of the group under construction. -/
def cnnScanInv (gid : String) (baseline assigned : Finset String)
    (grp : Option DuplicateGroup) (sims : List ℚ) : Prop :=
  (grp = none → sims = []) ∧
  ∀ g, grp = some g →
    g.group_id = gid ∧ g.algorithm = "cnn" ∧ 2 ≤ g.get_size ∧
    sims = memberSims g ∧ sims ≠ [] ∧
    ∀ p ∈ g.paths, p ∈ assigned ∧ p ∉ baseline

theorem findCnnScan_inv (sim : List ℚ → List ℚ → ℚ) (cthr : ℚ)
    (path1 : String) (features1 : List ℚ) (gid : String)
    (rest : List (String × List ℚ)) (baseline : Finset String) :
    ∀ (assigned : Finset String) (grp : Option DuplicateGroup) (sims : List ℚ)
      (t : Option ℕ) (c : ℕ) (grp' : Option DuplicateGroup) (sims' : List ℚ)
      (assigned' : Finset String) (c' : ℕ),
      baseline ⊆ assigned →
      (grp = none → path1 ∉ baseline) →
      cnnScanInv gid baseline assigned grp sims →
      findCnnScan sim cthr path1 features1 gid rest assigned grp sims t c =
        (grp', sims', assigned', c') →
      assigned ⊆ assigned' ∧ cnnScanInv gid baseline assigned' grp' sims' := by
  induction rest with
  | nil =>
    intro assigned grp sims t c grp' sims' assigned' c' hbase hp1 hinv heq
    simp only [findCnnScan, Prod.mk.injEq] at heq
    obtain ⟨rfl, rfl, rfl, rfl⟩ := heq
    exact ⟨le_refl _, hinv⟩
  | cons q rest ih =>
    intro assigned grp sims t c grp' sims' assigned' c' hbase hp1 hinv heq
    obtain ⟨path2, features2⟩ := q
    simp only [findCnnScan] at heq
    by_cases hcan : cancelledAt t c
    · rw [if_pos hcan] at heq
      simp only [Prod.mk.injEq] at heq
      obtain ⟨rfl, rfl, rfl, rfl⟩ := heq
      exact ⟨le_refl _, hinv⟩
    · rw [if_neg hcan] at heq
      by_cases hmem : path2 ∈ assigned
      · rw [if_pos hmem] at heq
        exact ih assigned grp sims t (c + 1) grp' sims' assigned' c'
          hbase hp1 hinv heq
      · rw [if_neg hmem] at heq
        by_cases hsim : cthr ≤ sim features1 features2
        · rw [if_pos hsim] at heq
          match grp, hp1, hinv with
          | none, hp1, hinv =>
            simp only at heq
            have hp1b : path1 ∉ baseline := hp1 rfl
            have hsims0 : sims = [] := hinv.1 rfl
            subst hsims0
            have hsub : assigned ⊆ insert path2 (insert path1 assigned) := by
              intro x hx; simp [hx]
            refine (ih _ _ _ t (c + 1) grp' sims' assigned' c'
              (hbase.trans hsub) (by simp) ?_ heq).imp_left hsub.trans
            refine ⟨by simp, ?_⟩
            intro g hg
            cases hg
            refine ⟨rfl, rfl, by simp [DuplicateGroup.get_size,
              DuplicateGroup.add_image, DuplicateGroup.init], ?_, by simp, ?_⟩
            · simp [memberSims, DuplicateGroup.add_image, DuplicateGroup.init]
            · intro p hp
              simp only [DuplicateGroup.paths, DuplicateGroup.add_image,
                DuplicateGroup.init, List.map_append, List.map_cons,
                List.map_nil, List.nil_append, List.append_nil,
                List.mem_append, List.mem_cons, List.not_mem_nil,
                or_false] at hp
              rcases hp with rfl | rfl
              · exact ⟨by simp, hp1b⟩
              · exact ⟨by simp, fun hb => hmem (hbase hb)⟩
          | some g, _, hinv =>
            simp only at heq
            have hsub : assigned ⊆ insert path2 assigned := by
              intro x hx; simp [hx]
            refine (ih _ _ _ t (c + 1) grp' sims' assigned' c'
              (hbase.trans hsub) (by simp) ?_ heq).imp_left hsub.trans
            obtain ⟨h1, h2, h3, h4, h5, h6⟩ := hinv.2 g rfl
            refine ⟨by simp, ?_⟩
            intro g2 hg2
            cases hg2
            refine ⟨h1, h2, ?_, ?_, by simp, ?_⟩
            · simp only [DuplicateGroup.get_size, DuplicateGroup.add_image,
                List.length_append, List.length_cons, List.length_nil]
              simp only [DuplicateGroup.get_size] at h3
              omega
            · have himg : g.images ≠ [] := by
                intro h0
                simp [DuplicateGroup.get_size, h0] at h3
              simp only [memberSims, DuplicateGroup.add_image]
              rw [List.drop_append_of_le_length (by
                simp only [DuplicateGroup.get_size] at h3; omega)]
              rw [List.filterMap_append]
              have hms : List.filterMap ImageInfo.similarity_to_group
                  (g.images.drop 1) = sims := by
                rw [h4]; rfl
              simp only [List.filterMap_cons, List.filterMap_nil, hms]
            · intro p hp
              simp only [DuplicateGroup.paths, DuplicateGroup.add_image,
                List.map_append, List.map_cons, List.map_nil,
                List.mem_append, List.mem_cons, List.not_mem_nil,
                or_false] at hp
              rcases hp with hp | rfl
              · obtain ⟨ha, hb⟩ := h6 p hp
                exact ⟨by simp [ha], hb⟩
              · exact ⟨by simp, fun hb => hmem (hbase hb)⟩
        · rw [if_neg hsim] at heq
          exact ih assigned grp sims t (c + 1) grp' sims' assigned' c'
            hbase hp1 hinv heq

/-- Invariant of the outer loop of `find_cnn_duplicates`: every accumulated
group has ≥ 2 members, score equal to the arithmetic mean of its recorded
non-seed similarities, confidence derived from that mean, member paths
contained in `assigned`, and pairwise path-disjointness. -/
def cnnOuterInv (assigned : Finset String) (groups : List DuplicateGroup) : Prop :=
  (∀ g ∈ groups,
    2 ≤ g.get_size ∧ memberSims g ≠ [] ∧
    g.similarity_score = (memberSims g).sum / ((memberSims g).length : ℚ) ∧
    g.confidence_level =
      confidenceLevel ((memberSims g).sum / ((memberSims g).length : ℚ)) ∧
    ∀ p ∈ g.paths, p ∈ assigned) ∧
  groups.Pairwise (fun g h => ∀ p ∈ g.paths, p ∉ h.paths)

theorem cnnOuterInv_mono {assigned assigned' : Finset String}
    {groups : List DuplicateGroup} (hsub : assigned ⊆ assigned')
    (h : cnnOuterInv assigned groups) : cnnOuterInv assigned' groups := by
  refine ⟨fun g hg => ?_, h.2⟩
  obtain ⟨h1, h2, h3, h4, h5⟩ := h.1 g hg
  exact ⟨h1, h2, h3, h4, fun p hp => hsub (h5 p hp)⟩

theorem findCnnOuter_inv (sim : List ℚ → List ℚ → ℚ) (cthr : ℚ)
    (l : List (String × List ℚ)) :
    ∀ (assigned : Finset String) (groups : List DuplicateGroup)
      (t : Option ℕ) (c : ℕ),
      cnnOuterInv assigned groups →
      (∀ g ∈ findCnnOuter sim cthr l assigned groups t c,
        2 ≤ g.get_size ∧ memberSims g ≠ [] ∧
        g.similarity_score = (memberSims g).sum / ((memberSims g).length : ℚ) ∧
        g.confidence_level =
          confidenceLevel ((memberSims g).sum / ((memberSims g).length : ℚ))) ∧
      (findCnnOuter sim cthr l assigned groups t c).Pairwise
        (fun g h => ∀ p ∈ g.paths, p ∉ h.paths) := by
  induction l with
  | nil =>
    intro assigned groups t c hinv
    exact ⟨fun g hg => ⟨(hinv.1 g hg).1, (hinv.1 g hg).2.1, (hinv.1 g hg).2.2.1,
      (hinv.1 g hg).2.2.2.1⟩, hinv.2⟩
  | cons q rest ih =>
    intro assigned groups t c hinv
    obtain ⟨path1, features1⟩ := q
    simp only [findCnnOuter]
    by_cases hcan : cancelledAt t c
    · rw [if_pos hcan]
      exact ⟨fun g hg => ⟨(hinv.1 g hg).1, (hinv.1 g hg).2.1, (hinv.1 g hg).2.2.1,
        (hinv.1 g hg).2.2.2.1⟩, hinv.2⟩
    · rw [if_neg hcan]
      by_cases hmem : path1 ∈ assigned
      · rw [if_pos hmem]
        exact ih assigned groups t (c + 1) hinv
      · rw [if_neg hmem]
        rcases hscan : findCnnScan sim cthr path1 features1
            ("cnn_group_" ++ toString groups.length) rest assigned none [] t (c + 1)
          with ⟨grp', sims', assigned', c'⟩
        have hscaninv := findCnnScan_inv sim cthr path1 features1
          ("cnn_group_" ++ toString groups.length) rest assigned assigned none
          [] t (c + 1) grp' sims' assigned' c' (le_refl _) (fun _ => hmem)
          ⟨fun _ => rfl, fun g hg => by cases hg⟩ hscan
        obtain ⟨hsub, _, hinv'⟩ := hscaninv
        cases grp' with
        | none =>
          dsimp only
          exact ih assigned' groups t c' (cnnOuterInv_mono hsub hinv)
        | some g =>
          dsimp only
          obtain ⟨hgid, halg, hsize, hsims, hne, hpaths⟩ := hinv' g rfl
          rw [if_pos (by omega : 1 < g.get_size)]
          rw [if_neg (by simp only [List.isEmpty_iff]; exact hne : ¬sims'.isEmpty = true)]
          set avg := sims'.sum / (sims'.length : ℚ) with havg
          set g' : DuplicateGroup :=
            { g with similarity_score := avg,
                     confidence_level := confidenceLevel avg } with hg'
          have hsims' : memberSims g' = sims' := by
            rw [hsims]; rfl
          have hpaths' : g'.paths = g.paths := rfl
          have hsize' : g'.get_size = g.get_size := rfl
          refine ih assigned' (groups ++ [g']) t c' ⟨?_, ?_⟩
          · intro h hh
            rcases List.mem_append.mp hh with hh | hh
            · obtain ⟨h1, h2, h3, h4, h5⟩ := hinv.1 h hh
              exact ⟨h1, h2, h3, h4, fun p hp => hsub (h5 p hp)⟩
            · rcases List.mem_singleton.mp hh with rfl
              refine ⟨hsize' ▸ hsize, by rw [hsims']; exact hsims ▸ hne, ?_, ?_, ?_⟩
              · rw [hsims']
              · rw [hsims']
              · intro p hp
                rw [hpaths'] at hp
                exact (hpaths p hp).1
          · rw [List.pairwise_append]
            refine ⟨hinv.2, List.pairwise_singleton _ _, ?_⟩
            intro a ha b hb p hp
            rcases List.mem_singleton.mp hb with rfl
            rw [hpaths']
            intro hpb
            exact (hpaths p hpb).2 ((hinv.1 a ha).2.2.2.2 p hp)

theorem confidenceLevel_one : confidenceLevel 1 = "high" := by
  norm_num [confidenceLevel]

/-- C2: in either grouping pass (hash-based or feature-based), under any
cancellation schedule, every emitted `DuplicateGroup` has at least 2 member
images, and no image path appears in more than one group of that pass's
result list. -/
theorem duplicate_groups_min_size_and_disjoint
    (thr : ℕ) (alg : String) (t : Option ℕ) (hashes : List (String × String))
    (use_cnn : Bool) (sim : List ℚ → List ℚ → ℚ) (cthr : ℚ) (t' : Option ℕ)
    (cnn_features : List (String × List ℚ)) :
    ((∀ g ∈ find_duplicates thr alg t hashes, 2 ≤ g.get_size) ∧
      (find_duplicates thr alg t hashes).Pairwise
        (fun g h => ∀ p ∈ g.paths, p ∉ h.paths)) ∧
    ((∀ g ∈ find_cnn_duplicates use_cnn sim cthr t' cnn_features, 2 ≤ g.get_size) ∧
      (find_cnn_duplicates use_cnn sim cthr t' cnn_features).Pairwise
        (fun g h => ∀ p ∈ g.paths, p ∉ h.paths)) := by
  constructor
  · have h := findDupOuter_inv thr alg hashes ∅ [] t 0
      ⟨fun g hg => absurd hg (List.not_mem_nil g), List.Pairwise.nil⟩
    exact ⟨fun g hg => (h.1 g hg).1, h.2⟩
  · rw [find_cnn_duplicates]
    by_cases hguard : !use_cnn || cnn_features.isEmpty
    · rw [if_pos hguard]
      exact ⟨fun g hg => absurd hg (List.not_mem_nil g), List.Pairwise.nil⟩
    · rw [if_neg hguard]
      have h := findCnnOuter_inv sim cthr cnn_features ∅ [] t' 0
        ⟨fun g hg => absurd hg (List.not_mem_nil g), List.Pairwise.nil⟩
      exact ⟨fun g hg => (h.1 g hg).1, h.2⟩

/-- C10: every group emitted by the hash-based pass carries the
constructor-default `similarity_score` of `1.0` and confidence `"high"`,
whatever the threshold and the actual Hamming distances were; the hash pass
never updates the score after construction. -/
theorem hash_groups_score_one_high
    (thr : ℕ) (alg : String) (t : Option ℕ) (hashes : List (String × String))
    (g : DuplicateGroup) (hg : g ∈ find_duplicates thr alg t hashes) :
    g.similarity_score = 1 ∧ g.confidence_level = "high" := by
  have h := findDupOuter_inv thr alg hashes ∅ [] t 0
    ⟨fun g hg => absurd hg (List.not_mem_nil g), List.Pairwise.nil⟩
  obtain ⟨_, hscore, hconf⟩ := h.1 g hg
  exact ⟨hscore, hconf.trans confidenceLevel_one⟩

/-- Witness for C10 at a positive threshold (5) where the two matched hashes
`"00"` and `"01"` are *not* identical (Hamming distance 1): the emitted
group still reports score `1.0` / `"high"`. -/
theorem hash_groups_score_one_high_witness :
    (find_duplicates 5 "dhash" none [("a", "00"), ("b", "01")]).length = 1 ∧
    ((find_duplicates 5 "dhash" none [("a", "00"), ("b", "01")]).head
        (by decide)).similarity_score = 1 ∧
    ((find_duplicates 5 "dhash" none [("a", "00"), ("b", "01")]).head
        (by decide)).confidence_level = "high" :=
  ⟨by decide,
    hash_groups_score_one_high 5 "dhash" none [("a", "00"), ("b", "01")] _
      (List.head_mem _)⟩

/-- C8: every group emitted by the feature-based pass has
`similarity_score` equal to the arithmetic mean of the seed-to-member
similarities recorded for its non-seed members, and `confidence_level`
derived from that mean with thresholds `0.95` (high) and `0.85` (medium). -/
theorem cnn_group_score_is_mean
    (use_cnn : Bool) (sim : List ℚ → List ℚ → ℚ) (cthr : ℚ) (t : Option ℕ)
    (cnn_features : List (String × List ℚ)) (g : DuplicateGroup)
    (hg : g ∈ find_cnn_duplicates use_cnn sim cthr t cnn_features) :
    memberSims g ≠ [] ∧
    g.similarity_score = (memberSims g).sum / ((memberSims g).length : ℚ) ∧
    g.confidence_level =
      (if (memberSims g).sum / ((memberSims g).length : ℚ) ≥ 0.95 then "high"
       else if (memberSims g).sum / ((memberSims g).length : ℚ) ≥ 0.85 then
         "medium"
       else "low") := by
  rw [find_cnn_duplicates] at hg
  by_cases hguard : !use_cnn || cnn_features.isEmpty
  · rw [if_pos hguard] at hg
    exact absurd hg (List.not_mem_nil g)
  · rw [if_neg hguard] at hg
    have h := findCnnOuter_inv sim cthr cnn_features ∅ [] t 0
      ⟨fun g hg => absurd hg (List.not_mem_nil g), List.Pairwise.nil⟩
    obtain ⟨_, hne, hscore, hconf⟩ := h.1 g hg
    exact ⟨hne, hscore, hconf⟩

/-- Witness for C8: a concrete feature pass over two images with a constant
similarity oracle emits one group, whose score is the mean of its recorded
non-seed similarities and whose confidence follows the thresholds. -/
theorem cnn_group_score_is_mean_witness :
    (find_cnn_duplicates true (fun _ _ => 1) 0 none [("a", [1]), ("b", [1])]).length = 1 ∧
    (memberSims ((find_cnn_duplicates true (fun _ _ => 1) 0 none
        [("a", [1]), ("b", [1])]).head (by decide)) ≠ [] ∧
      ((find_cnn_duplicates true (fun _ _ => 1) 0 none
        [("a", [1]), ("b", [1])]).head (by decide)).similarity_score =
        (memberSims ((find_cnn_duplicates true (fun _ _ => 1) 0 none
          [("a", [1]), ("b", [1])]).head (by decide))).sum /
        ((memberSims ((find_cnn_duplicates true (fun _ _ => 1) 0 none
          [("a", [1]), ("b", [1])]).head (by decide))).length : ℚ)) :=
  ⟨by decide,
    (cnn_group_score_is_mean true (fun _ _ => 1) 0 none [("a", [1]), ("b", [1])] _
      (List.head_mem _)).1,
    (cnn_group_score_is_mean true (fun _ _ => 1) 0 none [("a", [1]), ("b", [1])] _
      (List.head_mem _)).2.1⟩

/-! ## DuplicateDetector.generate_hashes / detect_duplicates (lines 305-337,
549-597) and DuplicateDetectorThread.run (lines 630-680)

`generate_hashes` decodes and hashes each path; decoding is external I/O,
modelled by an oracle `hashOf : String → Option String` (`None` for paths
whose hash computation failed — `dhash`/`ahash` catch every exception and
return `None`).  Claims C3 and C9 concern uncancelled runs, so the
pipeline-level embedding fixes the cancellation schedule to `none`.

Phase 2 of `detect_duplicates` (lines 577-589) runs inside
`try: ... except Exception`: the whole block — feature generation and cnn
grouping — can raise an arbitrary unexpected error.  The block's outcome is
therefore a parameter `cnn_phase : Except String (List (String × List ℚ))`:
`.ok feats` is a normal feature-generation outcome, `.error e` is an
unexpected exception raised inside the phase-2 block. -/

/-- `DuplicateDetector.generate_hashes` (uncancelled): paths whose hash
computation yields nothing are dropped from the mapping. -/
def generate_hashes (hashOf : String → Option String)
    (image_paths : List String) : List (String × String) :=
  image_paths.filterMap fun p => (hashOf p).map fun h => (p, h)

/-- `DuplicateDetector.detect_duplicates`: phase 1 (hash groups, skipped
when no hash could be generated — only a warning is logged), then phase 2
(cnn groups) when `use_cnn`, with the phase-2 block's unexpected errors
swallowed (`except Exception: log`). -/
def detect_duplicates (thr : ℕ) (alg : String) (use_cnn : Bool)
    (hashOf : String → Option String) (image_paths : List String)
    (cnn_phase : Except String (List (String × List ℚ)))
    (sim : List ℚ → List ℚ → ℚ) (cthr : ℚ) : List DuplicateGroup :=
  let hashes := generate_hashes hashOf image_paths
  let hash_groups := if hashes.isEmpty then [] else find_duplicates thr alg none hashes
  let cnn_groups :=
    if use_cnn then
      match cnn_phase with
      | .ok cnn_features =>
        if cnn_features.isEmpty then []
        else find_cnn_duplicates use_cnn sim cthr none cnn_features
      | .error _ => []
    else []
  hash_groups ++ cnn_groups

/-- The statistics dict assembled by `DuplicateDetectorThread.run`
(the wall-clock and configuration-echo entries are omitted: time is
external, the configuration entries are copies of the arguments). -/
structure DetectionStatistics where
  total_images_processed : ℕ
  total_groups_found : ℕ
  total_duplicate_images : ℕ
  hash_groups_found : ℕ
  cnn_groups_found : ℕ
deriving DecidableEq

/-- The two terminal Qt signals of `DuplicateDetectorThread.run`. -/
inductive RunSignal where
  | detection_completed (groups : List DuplicateGroup) (stats : DetectionStatistics)
  | detection_error (msg : String)
deriving DecidableEq

/-- `DuplicateDetectorThread.run`: calls `detect_duplicates`, assembles the
statistics and emits `detection_completed`.  The surrounding
`try/except` would emit `detection_error` only if the body raised, and the
body handles all of its own error cases internally (per-image failures are
skipped, the phase-2 block has its own handler), so the model is total and
always reaches `detection_completed` — including when zero fingerprints
were generated. -/
def DuplicateDetectorThread_run (thr : ℕ) (alg : String) (use_cnn : Bool)
    (hashOf : String → Option String) (image_paths : List String)
    (cnn_phase : Except String (List (String × List ℚ)))
    (sim : List ℚ → List ℚ → ℚ) (cthr : ℚ) : RunSignal :=
  let duplicate_groups :=
    detect_duplicates thr alg use_cnn hashOf image_paths cnn_phase sim cthr
  .detection_completed duplicate_groups
    { total_images_processed := image_paths.length
      total_groups_found := duplicate_groups.length
      total_duplicate_images := (duplicate_groups.map DuplicateGroup.get_size).sum
      hash_groups_found :=
        (duplicate_groups.filter fun g =>
          g.algorithm == "dhash" || g.algorithm == "ahash").length
      cnn_groups_found :=
        (duplicate_groups.filter fun g => g.algorithm == "cnn").length }

/-- C3 (code evaluated at the failing input): with every input path
undecodable (no fingerprint can be generated), the threaded run emits a
normal `detection_completed` with an empty group list — it does *not*
abort with a `detection_error`, contradicting both the spec's RunFailure
requirement and the repository's own test
`test_thread_run_error`, which asserts that `detection_error` is emitted
with "No valid image hashes could be generated". -/
theorem thread_run_completes_on_zero_hashes :
    DuplicateDetectorThread_run 5 "dhash" false (fun _ => none)
      ["/nonexistent/path1.jpg", "/nonexistent/path2.jpg"]
      (.ok []) (fun _ _ => 0) (17/20) =
    .detection_completed []
      { total_images_processed := 2, total_groups_found := 0,
        total_duplicate_images := 0, hash_groups_found := 0,
        cnn_groups_found := 0 } ∧
    ∀ msg, DuplicateDetectorThread_run 5 "dhash" false (fun _ => none)
      ["/nonexistent/path1.jpg", "/nonexistent/path2.jpg"]
      (.ok []) (fun _ _ => 0) (17/20) ≠ .detection_error msg := by
  constructor
  · rfl
  · intro msg h
    exact RunSignal.noConfusion h

/-- C9: if the phase-2 (feature-matching) block raises any unexpected
error, `detect_duplicates` still returns exactly the phase-1 hash-based
groups; a phase-2 failure never aborts the run or discards phase-1
results. -/
theorem phase2_error_preserves_hash_groups
    (thr : ℕ) (alg : String) (use_cnn : Bool)
    (hashOf : String → Option String) (image_paths : List String)
    (msg : String) (sim : List ℚ → List ℚ → ℚ) (cthr : ℚ) :
    detect_duplicates thr alg use_cnn hashOf image_paths (.error msg) sim cthr =
      (if (generate_hashes hashOf image_paths).isEmpty then []
       else find_duplicates thr alg none (generate_hashes hashOf image_paths)) := by
  unfold detect_duplicates
  cases use_cnn <;> simp

/-! ### Cancellation analysis of the hash grouping pass (C5)

Because the flag is monotone and read once per loop iteration, the run
under schedule `some n` coincides with the never-cancelled run until the
n-th read; the inner scan under `some n` is the uncancelled scan of a
`take`-prefix of its input. -/

theorem cancelledAt_none (c : ℕ) : cancelledAt none c = false := rfl

theorem cancelledAt_some_iff (n c : ℕ) : cancelledAt (some n) c = true ↔ n ≤ c := by
  simp [cancelledAt]

theorem cancelledAt_none_false (c : ℕ) : ¬cancelledAt none c = true := by
  simp [cancelledAt]

theorem findDupScan_take (thr : ℕ) (alg path1 hash1 gid : String) :
    ∀ (rest : List (String × String)) (assigned : Finset String)
      (grp : Option DuplicateGroup) (n c : ℕ),
      findDupScan thr alg path1 hash1 gid rest assigned grp (some n) c =
        findDupScan thr alg path1 hash1 gid (rest.take (n - c)) assigned grp none c := by
  intro rest
  induction rest with
  | nil => intro assigned grp n c; simp [findDupScan]
  | cons q rest ih =>
    intro assigned grp n c
    by_cases hnc : n ≤ c
    · have h0 : n - c = 0 := by omega
      rw [h0]
      simp only [List.take_zero, findDupScan]
      rw [if_pos (by simpa [cancelledAt_some_iff] using hnc)]
    · obtain ⟨b, hb⟩ : ∃ b, n - c = b + 1 := ⟨n - c - 1, by omega⟩
      rw [hb]
      obtain ⟨path2, hash2⟩ := q
      have hcan1 : ¬cancelledAt (some n) c = true := by
        simp [cancelledAt_some_iff]; omega
      have hb' : n - (c + 1) = b := by omega
      simp only [List.take_succ_cons, findDupScan]
      rw [if_neg hcan1, if_neg (cancelledAt_none_false c)]
      by_cases hmem : path2 ∈ assigned
      · rw [if_pos hmem]; rw [if_pos hmem]; rw [ih assigned grp n (c + 1), hb']
      · rw [if_neg hmem]; rw [if_neg hmem]
        by_cases hdist : hamming_distance hash1 hash2 ≤ (thr : ℕ∞)
        · rw [if_pos hdist]; rw [if_pos hdist]
          cases grp with
          | none => dsimp only; rw [ih _ _ n (c + 1), hb']
          | some g => dsimp only; rw [ih _ _ n (c + 1), hb']
        · rw [if_neg hdist]; rw [if_neg hdist]; rw [ih assigned grp n (c + 1), hb']

theorem findDupScan_append (thr : ℕ) (alg path1 hash1 gid : String) :
    ∀ (l₁ l₂ : List (String × String)) (assigned : Finset String)
      (grp : Option DuplicateGroup) (c : ℕ),
      findDupScan thr alg path1 hash1 gid (l₁ ++ l₂) assigned grp none c =
        findDupScan thr alg path1 hash1 gid l₂
          (findDupScan thr alg path1 hash1 gid l₁ assigned grp none c).2.1
          (findDupScan thr alg path1 hash1 gid l₁ assigned grp none c).1
          none
          (findDupScan thr alg path1 hash1 gid l₁ assigned grp none c).2.2 := by
  intro l₁
  induction l₁ with
  | nil => intro l₂ assigned grp c; simp [findDupScan]
  | cons q l₁ ih =>
    intro l₂ assigned grp c
    obtain ⟨path2, hash2⟩ := q
    simp only [List.cons_append, findDupScan, List.append_eq]
    rw [if_neg (cancelledAt_none_false c)]
    rw [if_neg (cancelledAt_none_false c)]
    by_cases hmem : path2 ∈ assigned
    · rw [if_pos hmem]; rw [if_pos hmem]; rw [ih]
    · rw [if_neg hmem]; rw [if_neg hmem]
      by_cases hdist : hamming_distance hash1 hash2 ≤ (thr : ℕ∞)
      · rw [if_pos hdist]; rw [if_pos hdist]
        cases grp with
        | none => dsimp only; rw [ih]
        | some g => dsimp only; rw [ih]
      · rw [if_neg hdist]; rw [if_neg hdist]; rw [ih]

theorem findDupScan_some_extends (thr : ℕ) (alg path1 hash1 gid : String) :
    ∀ (rest : List (String × String)) (assigned : Finset String)
      (g : DuplicateGroup) (c : ℕ),
      ∃ g' assigned' c',
        findDupScan thr alg path1 hash1 gid rest assigned (some g) none c =
          (some g', assigned', c') ∧
        g.images <+: g'.images ∧ g'.group_id = g.group_id ∧
        g'.algorithm = g.algorithm := by
  intro rest
  induction rest with
  | nil =>
    intro assigned g c
    exact ⟨g, assigned, c, by simp [findDupScan], List.prefix_rfl, rfl, rfl⟩
  | cons q rest ih =>
    intro assigned g c
    obtain ⟨path2, hash2⟩ := q
    simp only [findDupScan]
    rw [if_neg (cancelledAt_none_false c)]
    by_cases hmem : path2 ∈ assigned
    · rw [if_pos hmem]; exact ih assigned g (c + 1)
    · rw [if_neg hmem]
      by_cases hdist : hamming_distance hash1 hash2 ≤ (thr : ℕ∞)
      · rw [if_pos hdist]
        obtain ⟨g', a', c', heq, hpre, hid, halg⟩ := ih (insert path2 assigned)
          (g.add_image { path := path2, hash := some hash2 }) (c + 1)
        refine ⟨g', a', c', heq, ?_, hid, halg⟩
        calc g.images <+: g.images ++ [{ path := path2, hash := some hash2 }] :=
              ⟨[{ path := path2, hash := some hash2 }], rfl⟩
          _ <+: g'.images := hpre
      · rw [if_neg hdist]
        exact ih assigned g (c + 1)

theorem findDupOuter_frame (thr : ℕ) (alg : String) :
    ∀ (l : List (String × String)) (assigned : Finset String)
      (groups : List DuplicateGroup) (t : Option ℕ) (c : ℕ),
      ∃ ext, findDupOuter thr alg l assigned groups t c = groups ++ ext := by
  intro l
  induction l with
  | nil => intro assigned groups t c; exact ⟨[], by simp [findDupOuter]⟩
  | cons q rest ih =>
    intro assigned groups t c
    obtain ⟨path1, hash1⟩ := q
    simp only [findDupOuter]
    by_cases hcan : cancelledAt t c
    · rw [if_pos hcan]; exact ⟨[], by simp⟩
    · rw [if_neg hcan]
      by_cases hmem : path1 ∈ assigned
      · rw [if_pos hmem]; exact ih assigned groups t (c + 1)
      · rw [if_neg hmem]
        rcases hscan : findDupScan thr alg path1 hash1
            ("group_" ++ toString groups.length) rest assigned none t (c + 1)
          with ⟨grp', assigned', c'⟩
        cases grp' with
        | none =>
          dsimp only
          exact ih assigned' groups t c'
        | some g =>
          dsimp only
          by_cases hsize : 1 < g.get_size
          · rw [if_pos hsize]
            obtain ⟨ext, hext⟩ := ih assigned' (groups ++ [g]) t c'
            exact ⟨[g] ++ ext, by rw [hext, List.append_assoc]⟩
          · rw [if_neg hsize]
            exact ih assigned' groups t c'

theorem findDupOuter_cancelled (thr : ℕ) (alg : String)
    (l : List (String × String)) (assigned : Finset String)
    (groups : List DuplicateGroup) {n c : ℕ} (h : n ≤ c) :
    findDupOuter thr alg l assigned groups (some n) c = groups := by
  cases l with
  | nil => rfl
  | cons q rest =>
    obtain ⟨path1, hash1⟩ := q
    simp only [findDupOuter]
    rw [if_pos (by simpa [cancelledAt_some_iff] using h)]

theorem findDupScan_counter (thr : ℕ) (alg path1 hash1 gid : String) :
    ∀ (rest : List (String × String)) (assigned : Finset String)
      (grp : Option DuplicateGroup) (c : ℕ),
      (findDupScan thr alg path1 hash1 gid rest assigned grp none c).2.2 =
        c + rest.length := by
  intro rest
  induction rest with
  | nil => intro assigned grp c; simp [findDupScan]
  | cons q rest ih =>
    intro assigned grp c
    obtain ⟨path2, hash2⟩ := q
    simp only [findDupScan, List.length_cons]
    rw [if_neg (cancelledAt_none_false c)]
    by_cases hmem : path2 ∈ assigned
    · rw [if_pos hmem, ih]; omega
    · rw [if_neg hmem]
      by_cases hdist : hamming_distance hash1 hash2 ≤ (thr : ℕ∞)
      · rw [if_pos hdist]
        cases grp with
        | none => dsimp only; rw [ih]; omega
        | some g => dsimp only; rw [ih]; omega
      · rw [if_neg hdist, ih]; omega

/-- A partially-built group: same identifier and algorithm as its completed
counterpart, its member list a prefix of the completed one, and already of
valid size (≥ 2). -/
def truncationOf (g g' : DuplicateGroup) : Prop :=
  g.group_id = g'.group_id ∧ g.algorithm = g'.algorithm ∧
  g.images <+: g'.images ∧ 2 ≤ g.get_size

theorem findDupOuter_cancel_split (thr : ℕ) (alg : String) :
    ∀ (l : List (String × String)) (assigned : Finset String)
      (groups : List DuplicateGroup) (n c : ℕ),
      (∃ ext, findDupOuter thr alg l assigned groups none c =
          findDupOuter thr alg l assigned groups (some n) c ++ ext) ∨
      (∃ gs g g' ext,
        findDupOuter thr alg l assigned groups (some n) c = gs ++ [g] ∧
        findDupOuter thr alg l assigned groups none c = gs ++ [g'] ++ ext ∧
        truncationOf g g') := by
  intro l
  induction l with
  | nil =>
    intro assigned groups n c
    exact Or.inl ⟨[], by simp [findDupOuter]⟩
  | cons q rest ih =>
    intro assigned groups n c
    obtain ⟨path1, hash1⟩ := q
    by_cases hnc : n ≤ c
    · left
      obtain ⟨ext, hext⟩ := findDupOuter_frame thr alg ((path1, hash1) :: rest)
        assigned groups none c
      exact ⟨ext, by rw [hext, findDupOuter_cancelled thr alg _ _ _ hnc]⟩
    · simp only [findDupOuter]
      have hcanN : ¬cancelledAt (some n) c = true := by
        simp [cancelledAt_some_iff]; omega
      rw [if_neg hcanN, if_neg (cancelledAt_none_false c)]
      by_cases hmem : path1 ∈ assigned
      · rw [if_pos hmem]; rw [if_pos hmem]
        exact ih assigned groups n (c + 1)
      · rw [if_neg hmem]; rw [if_neg hmem]
        rw [findDupScan_take thr alg path1 hash1 _ rest assigned none n (c + 1)]
        by_cases hb : rest.length ≤ n - (c + 1)
        · rw [List.take_of_length_le hb]
          rcases hscan : findDupScan thr alg path1 hash1
              ("group_" ++ toString groups.length) rest assigned none none (c + 1)
            with ⟨grp', assigned', c'⟩
          cases grp' with
          | none =>
            dsimp only
            exact ih assigned' groups n c'
          | some g =>
            dsimp only
            by_cases hsize : 1 < g.get_size
            · rw [if_pos hsize]
              exact ih assigned' (groups ++ [g]) n c'
            · rw [if_neg hsize]
              exact ih assigned' groups n c'
        · -- the scan is interrupted mid-way: the truncated scan covers
          -- exactly the first `n - (c + 1)` candidates
          rcases hscanT : findDupScan thr alg path1 hash1
              ("group_" ++ toString groups.length)
              (rest.take (n - (c + 1))) assigned none none (c + 1)
            with ⟨grpT, aT, cT⟩
          have hlenT : (rest.take (n - (c + 1))).length = n - (c + 1) := by
            rw [List.length_take]; omega
          have hcT : cT = n := by
            have := findDupScan_counter thr alg path1 hash1
              ("group_" ++ toString groups.length)
              (rest.take (n - (c + 1))) assigned none (c + 1)
            rw [hscanT] at this
            simp only at this
            rw [this, hlenT]; omega
          have happ := findDupScan_append thr alg path1 hash1
            ("group_" ++ toString groups.length)
            (rest.take (n - (c + 1))) (rest.drop (n - (c + 1))) assigned none (c + 1)
          rw [List.take_append_drop] at happ
          rw [hscanT] at happ
          dsimp only at happ
          have hinvT := findDupScan_inv thr alg path1 hash1
            ("group_" ++ toString groups.length) (rest.take (n - (c + 1)))
            assigned assigned none none (c + 1) grpT aT cT (le_refl _)
            (fun _ => hmem) (fun g hg => by cases hg) hscanT
          cases grpT with
          | none =>
            -- nothing was being built when the flag was observed
            left
            dsimp only
            rw [findDupOuter_cancelled thr alg rest aT groups (by omega : n ≤ cT)]
            rw [happ]
            rcases hscanF : findDupScan thr alg path1 hash1
                ("group_" ++ toString groups.length)
                (rest.drop (n - (c + 1))) aT none none cT
              with ⟨grpF, aF, cF⟩
            cases grpF with
            | none =>
              dsimp only
              obtain ⟨ext, hext⟩ := findDupOuter_frame thr alg rest aF groups none cF
              exact ⟨ext, hext⟩
            | some gF =>
              dsimp only
              by_cases hsizeF : 1 < gF.get_size
              · rw [if_pos hsizeF]
                obtain ⟨ext, hext⟩ := findDupOuter_frame thr alg rest aF
                  (groups ++ [gF]) none cF
                exact ⟨[gF] ++ ext, by rw [hext, List.append_assoc]⟩
              · rw [if_neg hsizeF]
                obtain ⟨ext, hext⟩ := findDupOuter_frame thr alg rest aF groups none cF
                exact ⟨ext, hext⟩
          | some gT =>
            -- a group with ≥ 2 members was being built: it is emitted as-is
            -- by the cancelled pass, and is a truncation of the group that
            -- the uncancelled scan completes
            right
            obtain ⟨_, hinvT'⟩ := hinvT
            obtain ⟨hgid, halgT, _, _, hsizeT, _⟩ := hinvT' gT rfl
            dsimp only
            rw [if_pos (by omega : 1 < gT.get_size)]
            rw [findDupOuter_cancelled thr alg rest aT (groups ++ [gT])
              (by omega : n ≤ cT)]
            obtain ⟨g'', aF, cF, heqF, hpre, hid, halg⟩ :=
              findDupScan_some_extends thr alg path1 hash1
                ("group_" ++ toString groups.length)
                (rest.drop (n - (c + 1))) aT gT cT
            rw [happ, heqF]
            dsimp only
            have hsizeF : 1 < g''.get_size := by
              have := hpre.length_le
              simp only [DuplicateGroup.get_size] at hsizeT ⊢
              omega
            rw [if_pos hsizeF]
            obtain ⟨ext, hext⟩ := findDupOuter_frame thr alg rest aF
              (groups ++ [g'']) none cF
            exact ⟨groups, gT, g'', ext,
              rfl, by rw [hext, List.append_assoc],
              ⟨hid.symm, halg.symm, hpre, hsizeT⟩⟩

/-- C5 (amended): when the cancellation flag becomes set during the hash
grouping pass, the scan unwinds at the next flag read and the pass returns
a prefix of the uncancelled pass's group list, except that the group being
built for the interrupted seed is also emitted whenever it already has at
least 2 members: that last group is a truncation (same id, same algorithm,
member-list prefix, size ≥ 2) of the group the completed scan would emit.
(The claim's "no partially-built group is emitted" is refuted by the
counterexample: only a group with fewer than 2 members is dropped.) -/
theorem cancelled_pass_returns_truncated_result (thr : ℕ) (alg : String)
    (hashes : List (String × String)) (n : ℕ) :
    (∃ ext, find_duplicates thr alg none hashes =
        find_duplicates thr alg (some n) hashes ++ ext) ∨
    (∃ gs g g' ext,
      find_duplicates thr alg (some n) hashes = gs ++ [g] ∧
      find_duplicates thr alg none hashes = gs ++ [g'] ++ ext ∧
      truncationOf g g') :=
  findDupOuter_cancel_split thr alg hashes ∅ [] n 0

/-- C5 counterexample: three identical fingerprints, threshold 0, flag
observed at the third read — i.e. set while the seed `"a"` was scanning,
after `"b"` matched but before `"c"` was tested.  No group had been
finalized before cancellation, yet the pass emits the partially-built group
`["a", "b"]` (the uncancelled pass emits `["a", "b", "c"]`), so the pass
does *not* return "exactly the groups finalized before cancellation" and a
partially-built group *is* emitted. -/
theorem cancelled_scan_emits_partial_group_cex :
    (find_duplicates 0 "dhash" (some 2)
        [("a", "0"), ("b", "0"), ("c", "0")]).map DuplicateGroup.paths =
      [["a", "b"]] ∧
    (find_duplicates 0 "dhash" none
        [("a", "0"), ("b", "0"), ("c", "0")]).map DuplicateGroup.paths =
      [["a", "b", "c"]] :=
  ⟨by decide, by decide⟩

/-! ## C1: refinement of the grouping passes against the specification's
SimilarityGrouper procedure

`specSimilarityGrouper` below transcribes the specification's §4.3 greedy
single-link procedure word for word (it is *not* derived from the Python
code; the refinement theorem compares the two): iterate candidates in input
order, skip assigned ones; for an unassigned seed `p1` scan all identifiers
after it that are not yet assigned, testing each against `p1`'s fingerprint
only; all matches of the scan form one group whose representative
fingerprint is the seed's; a group is kept iff it has ≥ 2 members; group
numbers are assigned sequentially in finalization order, scoped per
algorithm. -/

structure SpecGroup (φ : Type) where
  gid : ℕ
  seed : String
  rep : φ
  members : List String

def specSimilarityGrouper {φ : Type} (matchTest : φ → φ → Bool) :
    List (String × φ) → Finset String → ℕ → List (SpecGroup φ)
  | [], _, _ => []
  | (p1, f1) :: later, assigned, k =>
    if p1 ∈ assigned then specSimilarityGrouper matchTest later assigned k
    else
      let ms := later.filter fun q => !decide (q.1 ∈ assigned) && matchTest f1 q.2
      if ms.isEmpty then specSimilarityGrouper matchTest later assigned k
      else
        { gid := k, seed := p1, rep := f1, members := p1 :: ms.map Prod.fst } ::
          specSimilarityGrouper matchTest later
            (assigned ∪ insert p1 (ms.map Prod.fst).toFinset) (k + 1)

/-- Folding `add_image` preserves id, algorithm and score, appends the
mapped infos to the member list, and preserves an already-set
representative hash. -/
theorem foldl_add_image {α : Type} (f : α → ImageInfo) :
    ∀ (ms : List α) (g : DuplicateGroup),
      (ms.foldl (fun g q => g.add_image (f q)) g).group_id = g.group_id ∧
      (ms.foldl (fun g q => g.add_image (f q)) g).algorithm = g.algorithm ∧
      (ms.foldl (fun g q => g.add_image (f q)) g).similarity_score =
        g.similarity_score ∧
      (ms.foldl (fun g q => g.add_image (f q)) g).images = g.images ++ ms.map f ∧
      ∀ h, g.representative_hash = some h →
        (ms.foldl (fun g q => g.add_image (f q)) g).representative_hash = some h := by
  intro ms
  induction ms with
  | nil => intro g; simp
  | cons q ms ih =>
    intro g
    simp only [List.foldl_cons, List.map_cons]
    obtain ⟨h1, h2, h3, h4, h5⟩ := ih (g.add_image (f q))
    refine ⟨h1, h2, h3, ?_, ?_⟩
    · rw [h4]
      simp [DuplicateGroup.add_image]
    · intro h hh
      exact h5 h (by simp [DuplicateGroup.add_image, hh])

theorem findDupScan_some_eq (thr : ℕ) (alg path1 hash1 gid : String) :
    ∀ (rest : List (String × String)) (assigned : Finset String)
      (g : DuplicateGroup) (c : ℕ),
      (rest.map Prod.fst).Nodup →
      findDupScan thr alg path1 hash1 gid rest assigned (some g) none c =
        (some ((rest.filter fun q => !decide (q.1 ∈ assigned) &&
            decide (hamming_distance hash1 q.2 ≤ (thr : ℕ∞))).foldl
            (fun g q => g.add_image { path := q.1, hash := some q.2 }) g),
          assigned ∪ ((rest.filter fun q => !decide (q.1 ∈ assigned) &&
            decide (hamming_distance hash1 q.2 ≤ (thr : ℕ∞))).map
              Prod.fst).toFinset,
          c + rest.length) := by
  intro rest
  induction rest with
  | nil =>
    intro assigned g c _
    simp [findDupScan]
  | cons q rest ih =>
    intro assigned g c hnd
    obtain ⟨path2, hash2⟩ := q
    have hh : path2 ∉ rest.map Prod.fst := (List.nodup_cons.mp hnd).1
    have hnd' : (rest.map Prod.fst).Nodup := (List.nodup_cons.mp hnd).2
    simp only [findDupScan]
    rw [if_neg (cancelledAt_none_false c)]
    by_cases hmem : path2 ∈ assigned
    · rw [if_pos hmem, ih assigned g (c + 1) hnd']
      rw [List.filter_cons_of_neg (by simp [hmem])]
      simp only [List.length_cons, Prod.mk.injEq]
      exact ⟨trivial, trivial, by omega⟩
    · rw [if_neg hmem]
      by_cases hdist : hamming_distance hash1 hash2 ≤ (thr : ℕ∞)
      · rw [if_pos hdist]
        rw [ih (insert path2 assigned)
          (g.add_image { path := path2, hash := some hash2 }) (c + 1) hnd']
        have hfc : rest.filter (fun q => !decide (q.1 ∈ insert path2 assigned) &&
              decide (hamming_distance hash1 q.2 ≤ (thr : ℕ∞))) =
            rest.filter (fun q => !decide (q.1 ∈ assigned) &&
              decide (hamming_distance hash1 q.2 ≤ (thr : ℕ∞))) := by
          apply List.filter_congr
          intro q hq
          have : q.1 ≠ path2 := fun h => hh (h ▸ List.mem_map_of_mem Prod.fst hq)
          simp [Finset.mem_insert, this]
        rw [hfc]
        rw [List.filter_cons_of_pos (by simp [hmem, hdist])]
        simp only [List.foldl_cons, List.map_cons, List.length_cons, Prod.mk.injEq]
        refine ⟨trivial, ?_, by omega⟩
        ext x
        simp only [Finset.mem_union, Finset.mem_insert, List.mem_toFinset,
          List.mem_cons]
        tauto
      · rw [if_neg hdist, ih assigned g (c + 1) hnd']
        rw [List.filter_cons_of_neg (by simp [hmem, hdist])]
        simp only [List.length_cons, Prod.mk.injEq]
        exact ⟨trivial, trivial, by omega⟩

theorem findDupScan_none_eq (thr : ℕ) (alg path1 hash1 gid : String) :
    ∀ (rest : List (String × String)) (assigned : Finset String) (c : ℕ),
      (rest.map Prod.fst).Nodup →
      path1 ∉ rest.map Prod.fst →
      findDupScan thr alg path1 hash1 gid rest assigned none none c =
        (if (rest.filter fun q => !decide (q.1 ∈ assigned) &&
              decide (hamming_distance hash1 q.2 ≤ (thr : ℕ∞))).isEmpty then
          (none, assigned, c + rest.length)
        else
          (some ((rest.filter fun q => !decide (q.1 ∈ assigned) &&
              decide (hamming_distance hash1 q.2 ≤ (thr : ℕ∞))).foldl
              (fun g q => g.add_image { path := q.1, hash := some q.2 })
              ((DuplicateGroup.init gid alg 1).add_image
                { path := path1, hash := some hash1 })),
            assigned ∪ insert path1
              (((rest.filter fun q => !decide (q.1 ∈ assigned) &&
                decide (hamming_distance hash1 q.2 ≤ (thr : ℕ∞))).map
                  Prod.fst).toFinset),
            c + rest.length)) := by
  intro rest
  induction rest with
  | nil =>
    intro assigned c _ _
    simp [findDupScan]
  | cons q rest ih =>
    intro assigned c hnd hp1
    obtain ⟨path2, hash2⟩ := q
    have hh : path2 ∉ rest.map Prod.fst := (List.nodup_cons.mp hnd).1
    have hnd' : (rest.map Prod.fst).Nodup := (List.nodup_cons.mp hnd).2
    have hp1' : path1 ∉ rest.map Prod.fst := fun h => hp1 (by simp [h])
    have hp1h : path1 ≠ path2 := fun h => hp1 (by simp [h])
    simp only [findDupScan]
    rw [if_neg (cancelledAt_none_false c)]
    by_cases hmem : path2 ∈ assigned
    · rw [if_pos hmem, ih assigned (c + 1) hnd' hp1']
      rw [List.filter_cons_of_neg (by simp [hmem])]
      by_cases hE : (rest.filter fun q => !decide (q.1 ∈ assigned) &&
          decide (hamming_distance hash1 q.2 ≤ (thr : ℕ∞))).isEmpty
      · rw [if_pos hE, if_pos hE]
        simp only [List.length_cons, Prod.mk.injEq]
        exact ⟨trivial, trivial, by omega⟩
      · rw [if_neg hE, if_neg hE]
        simp only [List.length_cons, Prod.mk.injEq]
        exact ⟨trivial, trivial, by omega⟩
    · rw [if_neg hmem]
      by_cases hdist : hamming_distance hash1 hash2 ≤ (thr : ℕ∞)
      · rw [if_pos hdist]
        rw [findDupScan_some_eq thr alg path1 hash1 gid rest
          (insert path2 (insert path1 assigned)) _ (c + 1) hnd']
        have hfc : rest.filter (fun q =>
              !decide (q.1 ∈ insert path2 (insert path1 assigned)) &&
              decide (hamming_distance hash1 q.2 ≤ (thr : ℕ∞))) =
            rest.filter (fun q => !decide (q.1 ∈ assigned) &&
              decide (hamming_distance hash1 q.2 ≤ (thr : ℕ∞))) := by
          apply List.filter_congr
          intro q hq
          have h2 : q.1 ≠ path2 := fun h => hh (h ▸ List.mem_map_of_mem Prod.fst hq)
          have h1 : q.1 ≠ path1 := fun h => hp1' (h ▸ List.mem_map_of_mem Prod.fst hq)
          simp [Finset.mem_insert, h1, h2]
        rw [hfc]
        rw [List.filter_cons_of_pos (by simp [hmem, hdist])]
        rw [if_neg (by simp)]
        simp only [List.foldl_cons, List.map_cons, List.length_cons, Prod.mk.injEq]
        refine ⟨trivial, ?_, by omega⟩
        ext x
        simp only [Finset.mem_union, Finset.mem_insert, List.mem_toFinset,
          List.mem_cons]
        tauto
      · rw [if_neg hdist, ih assigned (c + 1) hnd' hp1']
        rw [List.filter_cons_of_neg (by simp [hmem, hdist])]
        by_cases hE : (rest.filter fun q => !decide (q.1 ∈ assigned) &&
            decide (hamming_distance hash1 q.2 ≤ (thr : ℕ∞))).isEmpty
        · rw [if_pos hE, if_pos hE]
          simp only [List.length_cons, Prod.mk.injEq]
          exact ⟨trivial, trivial, by omega⟩
        · rw [if_neg hE, if_neg hE]
          simp only [List.length_cons, Prod.mk.injEq]
          exact ⟨trivial, trivial, by omega⟩

theorem findDupOuter_refines_spec (thr : ℕ) (alg : String) :
    ∀ (l : List (String × String)) (assigned : Finset String)
      (groups : List DuplicateGroup) (c : ℕ),
      (l.map Prod.fst).Nodup →
      (findDupOuter thr alg l assigned groups none c).map
        (fun g => (g.group_id, g.representative_hash, g.paths)) =
      groups.map (fun g => (g.group_id, g.representative_hash, g.paths)) ++
        (specSimilarityGrouper
          (fun h1 h2 => decide (hamming_distance h1 h2 ≤ (thr : ℕ∞)))
          l assigned groups.length).map
          (fun s => ("group_" ++ toString s.gid, some s.rep, s.members)) := by
  intro l
  induction l with
  | nil =>
    intro assigned groups c _
    simp [findDupOuter, specSimilarityGrouper]
  | cons q rest ih =>
    intro assigned groups c hnd
    obtain ⟨path1, hash1⟩ := q
    have hp1 : path1 ∉ rest.map Prod.fst := (List.nodup_cons.mp hnd).1
    have hnd' : (rest.map Prod.fst).Nodup := (List.nodup_cons.mp hnd).2
    simp only [findDupOuter, specSimilarityGrouper]
    rw [if_neg (cancelledAt_none_false c)]
    by_cases hmem : path1 ∈ assigned
    · rw [if_pos hmem, if_pos hmem]
      exact ih assigned groups (c + 1) hnd'
    · rw [if_neg hmem, if_neg hmem]
      rw [findDupScan_none_eq thr alg path1 hash1 _ rest assigned (c + 1) hnd' hp1]
      by_cases hE : (rest.filter fun q => !decide (q.1 ∈ assigned) &&
          decide (hamming_distance hash1 q.2 ≤ (thr : ℕ∞))).isEmpty
      · rw [if_pos hE]
        rw [if_pos (by simpa using hE)]
        dsimp only
        exact ih assigned groups (c + 1 + rest.length) hnd'
      · rw [if_neg hE]
        rw [if_neg (by simpa using hE)]
        dsimp only
        set ms := rest.filter fun q => !decide (q.1 ∈ assigned) &&
          decide (hamming_distance hash1 q.2 ≤ (thr : ℕ∞)) with hms
        set base := (DuplicateGroup.init ("group_" ++ toString groups.length)
          alg 1).add_image { path := path1, hash := some hash1 } with hbase
        obtain ⟨hid, halg2, hscore, himg, hrep⟩ :=
          foldl_add_image (fun q : String × String =>
            ({ path := q.1, hash := some q.2 } : ImageInfo)) ms base
        have hmsne : ms ≠ [] := by simpa [List.isEmpty_iff] using hE
        have hsize : 1 < (ms.foldl
            (fun g q => g.add_image { path := q.1, hash := some q.2 }) base).get_size := by
          simp only [DuplicateGroup.get_size, himg, List.length_append]
          have : 0 < ms.length := List.length_pos.mpr hmsne
          simp only [hbase, DuplicateGroup.add_image, DuplicateGroup.init,
            List.nil_append, List.length_cons, List.length_nil, List.length_map]
          omega
        rw [if_pos hsize]
        rw [ih (assigned ∪ insert path1 ((ms.map Prod.fst).toFinset))
          (groups ++ [ms.foldl
            (fun g q => g.add_image { path := q.1, hash := some q.2 }) base])
          (c + 1 + rest.length) hnd']
        rw [List.map_append, List.append_assoc, List.length_append]
        congr 1
        simp only [List.map_cons, List.map_nil, List.length_cons, List.length_nil,
          List.singleton_append]
        congr 1
        · -- the projected freshly-built group equals the spec's head group
          have hpaths : (ms.foldl
              (fun g q => g.add_image { path := q.1, hash := some q.2 }) base).paths =
              path1 :: ms.map Prod.fst := by
            simp only [DuplicateGroup.paths, himg, List.map_append]
            simp only [hbase, DuplicateGroup.add_image, DuplicateGroup.init,
              List.nil_append, List.map_cons, List.map_nil, List.map_map]
            rfl
          have hrep2 : (ms.foldl
              (fun g q => g.add_image { path := q.1, hash := some q.2 }) base).representative_hash =
              some hash1 := by
            apply hrep
            simp [hbase, DuplicateGroup.add_image, DuplicateGroup.init]
          have hid2 : (ms.foldl
              (fun g q => g.add_image { path := q.1, hash := some q.2 }) base).group_id =
              "group_" ++ toString groups.length := by
            rw [hid]
            simp [hbase, DuplicateGroup.add_image, DuplicateGroup.init]
          rw [hid2, hrep2, hpaths]

theorem findCnnScan_some_eq (sim : List ℚ → List ℚ → ℚ) (cthr : ℚ)
    (path1 : String) (features1 : List ℚ) (gid : String) :
    ∀ (rest : List (String × List ℚ)) (assigned : Finset String)
      (g : DuplicateGroup) (sims : List ℚ) (c : ℕ),
      (rest.map Prod.fst).Nodup →
      findCnnScan sim cthr path1 features1 gid rest assigned (some g) sims none c =
        (some ((rest.filter fun q => !decide (q.1 ∈ assigned) &&
            decide (cthr ≤ sim features1 q.2)).foldl
            (fun g q => g.add_image
              { path := q.1, hash := none, cnn_features := some q.2,
                similarity_to_group := some (sim features1 q.2) }) g),
          sims ++ (rest.filter fun q => !decide (q.1 ∈ assigned) &&
            decide (cthr ≤ sim features1 q.2)).map (fun q => sim features1 q.2),
          assigned ∪ ((rest.filter fun q => !decide (q.1 ∈ assigned) &&
            decide (cthr ≤ sim features1 q.2)).map Prod.fst).toFinset,
          c + rest.length) := by
  intro rest
  induction rest with
  | nil =>
    intro assigned g sims c _
    simp [findCnnScan]
  | cons q rest ih =>
    intro assigned g sims c hnd
    obtain ⟨path2, features2⟩ := q
    have hh : path2 ∉ rest.map Prod.fst := (List.nodup_cons.mp hnd).1
    have hnd' : (rest.map Prod.fst).Nodup := (List.nodup_cons.mp hnd).2
    simp only [findCnnScan]
    rw [if_neg (cancelledAt_none_false c)]
    by_cases hmem : path2 ∈ assigned
    · rw [if_pos hmem, ih assigned g sims (c + 1) hnd']
      rw [List.filter_cons_of_neg (by simp [hmem])]
      simp only [List.length_cons, Prod.mk.injEq]
      exact ⟨trivial, trivial, trivial, by omega⟩
    · rw [if_neg hmem]
      by_cases hdist : cthr ≤ sim features1 features2
      · rw [if_pos hdist]
        rw [ih (insert path2 assigned)
          (g.add_image
            { path := path2, hash := none, cnn_features := some features2,
              similarity_to_group := some (sim features1 features2) })
          (sims ++ [sim features1 features2]) (c + 1) hnd']
        have hfc : rest.filter (fun q => !decide (q.1 ∈ insert path2 assigned) &&
              decide (cthr ≤ sim features1 q.2)) =
            rest.filter (fun q => !decide (q.1 ∈ assigned) &&
              decide (cthr ≤ sim features1 q.2)) := by
          apply List.filter_congr
          intro q hq
          have : q.1 ≠ path2 := fun h => hh (h ▸ List.mem_map_of_mem Prod.fst hq)
          simp [Finset.mem_insert, this]
        rw [hfc]
        rw [List.filter_cons_of_pos (by simp [hmem, hdist])]
        simp only [List.foldl_cons, List.map_cons, List.length_cons,
          Prod.mk.injEq, List.append_assoc, List.singleton_append]
        refine ⟨trivial, trivial, ?_, by omega⟩
        ext x
        simp only [Finset.mem_union, Finset.mem_insert, List.mem_toFinset,
          List.mem_cons]
        tauto
      · rw [if_neg hdist, ih assigned g sims (c + 1) hnd']
        rw [List.filter_cons_of_neg (by simp [hmem, hdist])]
        simp only [List.length_cons, Prod.mk.injEq]
        exact ⟨trivial, trivial, trivial, by omega⟩

theorem findCnnScan_none_eq (sim : List ℚ → List ℚ → ℚ) (cthr : ℚ)
    (path1 : String) (features1 : List ℚ) (gid : String) :
    ∀ (rest : List (String × List ℚ)) (assigned : Finset String) (c : ℕ),
      (rest.map Prod.fst).Nodup →
      path1 ∉ rest.map Prod.fst →
      ((rest.filter fun q => !decide (q.1 ∈ assigned) &&
          decide (cthr ≤ sim features1 q.2)) = [] →
        findCnnScan sim cthr path1 features1 gid rest assigned none [] none c =
          (none, [], assigned, c + rest.length)) ∧
      (∀ q0 ms', (rest.filter fun q => !decide (q.1 ∈ assigned) &&
          decide (cthr ≤ sim features1 q.2)) = q0 :: ms' →
        findCnnScan sim cthr path1 features1 gid rest assigned none [] none c =
          (some (ms'.foldl
            (fun g q => g.add_image
              { path := q.1, hash := none, cnn_features := some q.2,
                similarity_to_group := some (sim features1 q.2) })
            (((DuplicateGroup.init gid "cnn" (sim features1 q0.2)).add_image
              { path := path1, hash := none, cnn_features := some features1,
                similarity_to_group := some 1 }).add_image
              { path := q0.1, hash := none, cnn_features := some q0.2,
                similarity_to_group := some (sim features1 q0.2) })),
          (q0 :: ms').map (fun q => sim features1 q.2),
          assigned ∪ insert path1 (((q0 :: ms').map Prod.fst).toFinset),
          c + rest.length)) := by
  intro rest
  induction rest with
  | nil =>
    intro assigned c _ _
    exact ⟨fun _ => by simp [findCnnScan], fun q0 ms' h => by simp at h⟩
  | cons q rest ih =>
    intro assigned c hnd hp1
    obtain ⟨path2, features2⟩ := q
    have hh : path2 ∉ rest.map Prod.fst := (List.nodup_cons.mp hnd).1
    have hnd' : (rest.map Prod.fst).Nodup := (List.nodup_cons.mp hnd).2
    have hp1' : path1 ∉ rest.map Prod.fst := fun h => hp1 (by simp [h])
    by_cases hmem : path2 ∈ assigned
    · have hflt : ((path2, features2) :: rest).filter
          (fun q => !decide (q.1 ∈ assigned) && decide (cthr ≤ sim features1 q.2)) =
          rest.filter (fun q => !decide (q.1 ∈ assigned) &&
            decide (cthr ≤ sim features1 q.2)) :=
        List.filter_cons_of_neg (by simp [hmem])
      rw [hflt]
      constructor
      · intro h0
        simp only [findCnnScan]
        rw [if_neg (cancelledAt_none_false c), if_pos hmem]
        rw [(ih assigned (c + 1) hnd' hp1').1 h0]
        simp only [List.length_cons, Prod.mk.injEq]
        exact ⟨trivial, trivial, trivial, by omega⟩
      · intro q0 ms' hcons
        simp only [findCnnScan]
        rw [if_neg (cancelledAt_none_false c), if_pos hmem]
        rw [(ih assigned (c + 1) hnd' hp1').2 q0 ms' hcons]
        simp only [List.length_cons, Prod.mk.injEq]
        exact ⟨trivial, trivial, trivial, by omega⟩
    · by_cases hdist : cthr ≤ sim features1 features2
      · -- the head is the first match: the group is created here
        have hflt : ((path2, features2) :: rest).filter
            (fun q => !decide (q.1 ∈ assigned) && decide (cthr ≤ sim features1 q.2)) =
            (path2, features2) :: rest.filter (fun q => !decide (q.1 ∈ assigned) &&
              decide (cthr ≤ sim features1 q.2)) :=
          List.filter_cons_of_pos (by simp [hmem, hdist])
        rw [hflt]
        refine ⟨fun h0 => by simp at h0, ?_⟩
        intro q0 ms' hcons
        obtain ⟨rfl, rfl⟩ : q0 = (path2, features2) ∧
            ms' = rest.filter (fun q => !decide (q.1 ∈ assigned) &&
              decide (cthr ≤ sim features1 q.2)) := by
          have h1 := List.head_eq_of_cons_eq hcons
          have h2 := List.tail_eq_of_cons_eq hcons
          exact ⟨h1.symm, h2.symm⟩
        simp only [findCnnScan]
        rw [if_neg (cancelledAt_none_false c), if_neg hmem, if_pos hdist]
        rw [findCnnScan_some_eq sim cthr path1 features1 gid rest
          (insert path2 (insert path1 assigned)) _ _ (c + 1) hnd']
        have hfc : rest.filter (fun q =>
              !decide (q.1 ∈ insert path2 (insert path1 assigned)) &&
              decide (cthr ≤ sim features1 q.2)) =
            rest.filter (fun q => !decide (q.1 ∈ assigned) &&
              decide (cthr ≤ sim features1 q.2)) := by
          apply List.filter_congr
          intro q hq
          have h2 : q.1 ≠ path2 := fun h => hh (h ▸ List.mem_map_of_mem Prod.fst hq)
          have h1 : q.1 ≠ path1 := fun h => hp1' (h ▸ List.mem_map_of_mem Prod.fst hq)
          simp [Finset.mem_insert, h1, h2]
        rw [hfc]
        simp only [List.map_cons, List.length_cons, Prod.mk.injEq,
          List.nil_append, List.singleton_append]
        refine ⟨trivial, trivial, ?_, by omega⟩
        ext x
        simp only [Finset.mem_union, Finset.mem_insert, List.mem_toFinset,
          List.mem_cons]
        tauto
      · have hflt : ((path2, features2) :: rest).filter
            (fun q => !decide (q.1 ∈ assigned) && decide (cthr ≤ sim features1 q.2)) =
            rest.filter (fun q => !decide (q.1 ∈ assigned) &&
              decide (cthr ≤ sim features1 q.2)) :=
          List.filter_cons_of_neg (by simp [hmem, hdist])
        rw [hflt]
        constructor
        · intro h0
          simp only [findCnnScan]
          rw [if_neg (cancelledAt_none_false c), if_neg hmem, if_neg hdist]
          rw [(ih assigned (c + 1) hnd' hp1').1 h0]
          simp only [List.length_cons, Prod.mk.injEq]
          exact ⟨trivial, trivial, trivial, by omega⟩
        · intro q0 ms' hcons
          simp only [findCnnScan]
          rw [if_neg (cancelledAt_none_false c), if_neg hmem, if_neg hdist]
          rw [(ih assigned (c + 1) hnd' hp1').2 q0 ms' hcons]
          simp only [List.length_cons, Prod.mk.injEq]
          exact ⟨trivial, trivial, trivial, by omega⟩

theorem findCnnOuter_refines_spec (sim : List ℚ → List ℚ → ℚ) (cthr : ℚ) :
    ∀ (l : List (String × List ℚ)) (assigned : Finset String)
      (groups : List DuplicateGroup) (c : ℕ),
      (l.map Prod.fst).Nodup →
      (findCnnOuter sim cthr l assigned groups none c).map
        (fun g => (g.group_id, g.paths)) =
      groups.map (fun g => (g.group_id, g.paths)) ++
        (specSimilarityGrouper (fun f1 f2 => decide (cthr ≤ sim f1 f2))
          l assigned groups.length).map
          (fun s => ("cnn_group_" ++ toString s.gid, s.members)) := by
  intro l
  induction l with
  | nil =>
    intro assigned groups c _
    simp [findCnnOuter, specSimilarityGrouper]
  | cons q rest ih =>
    intro assigned groups c hnd
    obtain ⟨path1, features1⟩ := q
    have hp1 : path1 ∉ rest.map Prod.fst := (List.nodup_cons.mp hnd).1
    have hnd' : (rest.map Prod.fst).Nodup := (List.nodup_cons.mp hnd).2
    simp only [findCnnOuter, specSimilarityGrouper]
    rw [if_neg (cancelledAt_none_false c)]
    by_cases hmem : path1 ∈ assigned
    · rw [if_pos hmem, if_pos hmem]
      exact ih assigned groups (c + 1) hnd'
    · rw [if_neg hmem, if_neg hmem]
      rcases hflt : rest.filter (fun q => !decide (q.1 ∈ assigned) &&
          decide (cthr ≤ sim features1 q.2)) with _ | ⟨q0, ms'⟩
      · rw [(findCnnScan_none_eq sim cthr path1 features1 _ rest assigned (c + 1)
          hnd' hp1).1 hflt]
        rw [if_pos (by simp [hflt])]
        dsimp only
        exact ih assigned groups (c + 1 + rest.length) hnd'
      · rw [(findCnnScan_none_eq sim cthr path1 features1 _ rest assigned (c + 1)
          hnd' hp1).2 q0 ms' hflt]
        rw [hflt]
        rw [if_neg (by simp : ¬(q0 :: ms').isEmpty = true)]
        dsimp only
        set base := ((DuplicateGroup.init ("cnn_group_" ++ toString groups.length)
          "cnn" (sim features1 q0.2)).add_image
          { path := path1, hash := none, cnn_features := some features1,
            similarity_to_group := some 1 }).add_image
          { path := q0.1, hash := none, cnn_features := some q0.2,
            similarity_to_group := some (sim features1 q0.2) } with hbase
        set G := ms'.foldl
          (fun g q => g.add_image
            { path := q.1, hash := none, cnn_features := some q.2,
              similarity_to_group := some (sim features1 q.2) }) base with hG
        obtain ⟨hid, halg2, hscore, himg, _⟩ :=
          foldl_add_image
            (fun q : String × List ℚ =>
              ({ path := q.1, hash := none, cnn_features := some q.2,
                  similarity_to_group := some (sim features1 q.2) } : ImageInfo))
            ms' base
        have hbimg : base.images.length = 2 := by
          simp [hbase, DuplicateGroup.add_image, DuplicateGroup.init]
        have hsize : 1 < G.get_size := by
          simp only [DuplicateGroup.get_size, hG, himg, List.length_append, hbimg]
          omega
        rw [if_pos hsize]
        have hsimsne : ¬((q0 :: ms').map (fun q => sim features1 q.2)).isEmpty = true := by
          simp
        rw [if_neg hsimsne]
        have hGid : G.group_id = "cnn_group_" ++ toString groups.length := by
          rw [hG, hid]
          simp [hbase, DuplicateGroup.add_image, DuplicateGroup.init]
        have hGpaths : G.paths = path1 :: (q0 :: ms').map Prod.fst := by
          simp only [DuplicateGroup.paths, hG, himg, List.map_append]
          simp only [hbase, DuplicateGroup.add_image, DuplicateGroup.init,
            List.nil_append, List.map_cons, List.map_nil, List.map_map]
          rfl
        rw [ih (assigned ∪ insert path1 (((q0 :: ms').map Prod.fst).toFinset))
          (groups ++ [_]) (c + 1 + rest.length) hnd']
        rw [List.map_append, List.append_assoc, List.length_append]
        congr 1
        simp only [List.map_cons, List.map_nil, List.length_cons, List.length_nil,
          List.singleton_append]
        congr 1
        have hupd1 : ∀ (s : ℚ) (cl : String),
            ({ G with similarity_score := s, confidence_level := cl } :
              DuplicateGroup).group_id = G.group_id := fun _ _ => rfl
        have hupd2 : ∀ (s : ℚ) (cl : String),
            ({ G with similarity_score := s, confidence_level := cl } :
              DuplicateGroup).paths = G.paths := fun _ _ => rfl
        have hupd3 : ∀ (a b : String) (s : ℚ) (r : Option String) (cl : String),
            (DuplicateGroup.mk a b s G.images r cl).paths = G.paths :=
          fun _ _ _ _ _ => rfl
        simp only [hupd1, hupd2, hGid, hupd3, hGpaths, List.map_cons]

/-- C1: both grouping passes refine the specification's SimilarityGrouper
procedure.  For an ordered fingerprint mapping (distinct paths, as in a
Python dict), the hash pass produces exactly the groups of the spec's
greedy single-link procedure — seeds iterated in input order, assigned
paths skipped, each later unassigned path tested against the seed's
fingerprint only, all matches of the scan collected into one group whose
representative hash is the seed's — with identifiers `group_0, group_1, …`
numbered sequentially in finalization order; the feature pass does the
same with its own similarity test and independently numbered identifiers
`cnn_group_0, cnn_group_1, …` (its groups carry no representative hash:
every member's `hash` field is `None`, and the seed's fingerprint is the
feature vector the matcher is applied to). -/
theorem find_duplicates_refines_spec_grouping
    (thr : ℕ) (alg : String) (hashes : List (String × String))
    (sim : List ℚ → List ℚ → ℚ) (cthr : ℚ)
    (cnn_features : List (String × List ℚ))
    (hnd : (hashes.map Prod.fst).Nodup)
    (hndf : (cnn_features.map Prod.fst).Nodup) :
    (find_duplicates thr alg none hashes).map
        (fun g => (g.group_id, g.representative_hash, g.paths)) =
      (specSimilarityGrouper
        (fun h1 h2 => decide (hamming_distance h1 h2 ≤ (thr : ℕ∞)))
        hashes ∅ 0).map
        (fun s => ("group_" ++ toString s.gid, some s.rep, s.members)) ∧
    (find_cnn_duplicates true sim cthr none cnn_features).map
        (fun g => (g.group_id, g.paths)) =
      (specSimilarityGrouper (fun f1 f2 => decide (cthr ≤ sim f1 f2))
        cnn_features ∅ 0).map
        (fun s => ("cnn_group_" ++ toString s.gid, s.members)) := by
  constructor
  · have h := findDupOuter_refines_spec thr alg hashes ∅ [] 0 hnd
    simpa using h
  · rw [find_cnn_duplicates]
    by_cases hE : cnn_features.isEmpty
    · rw [if_pos (by simp [hE])]
      obtain rfl : cnn_features = [] := by simpa [List.isEmpty_iff] using hE
      simp [specSimilarityGrouper]
    · rw [if_neg (by simp [hE])]
      have h := findCnnOuter_refines_spec sim cthr cnn_features ∅ [] 0 hndf
      simpa using h

/-- Witness for C1 at concrete inputs: three hash fingerprints with
distinct paths (two matching at threshold 0) and two feature vectors under
a constant similarity oracle.  The last conjunct evaluates the hash pass,
exhibiting the single finalized group `group_0` with the seed's
representative hash. -/
theorem find_duplicates_refines_spec_grouping_witness :
    (([("a", "0"), ("b", "0"), ("c", "1")] :
      List (String × String)).map Prod.fst).Nodup ∧
    (([("x", [1]), ("y", [1])] : List (String × List ℚ)).map Prod.fst).Nodup ∧
    ((find_duplicates 0 "dhash" none [("a", "0"), ("b", "0"), ("c", "1")]).map
        (fun g => (g.group_id, g.representative_hash, g.paths)) =
      (specSimilarityGrouper
        (fun h1 h2 => decide (hamming_distance h1 h2 ≤ ((0 : ℕ) : ℕ∞)))
        [("a", "0"), ("b", "0"), ("c", "1")] ∅ 0).map
        (fun s => ("group_" ++ toString s.gid, some s.rep, s.members))) ∧
    (find_duplicates 0 "dhash" none [("a", "0"), ("b", "0"), ("c", "1")]).map
        (fun g => (g.group_id, g.representative_hash, g.paths)) =
      [("group_0", some "0", ["a", "b"])] :=
  ⟨by decide, by decide,
    (find_duplicates_refines_spec_grouping 0 "dhash"
      [("a", "0"), ("b", "0"), ("c", "1")] (fun _ _ => 1) 0
      [("x", [1]), ("y", [1])] (by decide) (by decide)).1,
    by decide⟩

/-! ## CNNFeatureExtractor.compute_similarity (lines 80-104)

The feature vectors are 1-D float arrays, reshaped to one row each;
`sklearn.metrics.pairwise.cosine_similarity` L2-normalizes each row —
substituting norm 1 for a zero norm (`sklearn.preprocessing.normalize`
replaces zero norms by 1.0 rather than raising) — and takes the dot
product; shape mismatch raises, which the `except` handler turns into
`0.0`.  Floats are idealised as `ℝ` (the definitions are noncomputable
because of `Real.sqrt`). -/

/-- Dot product of two equal-length vectors (`numpy` row-times-row). -/
noncomputable def dot (u v : List ℝ) : ℝ := (List.zipWith (· * ·) u v).sum

/-- Euclidean norm of a vector. -/
noncomputable def l2norm (u : List ℝ) : ℝ := Real.sqrt (dot u u)

/-- The norm used by `sklearn.preprocessing.normalize`: zero norms are
replaced by 1 (so zero vectors are passed through unchanged). -/
noncomputable def sk_norm (u : List ℝ) : ℝ := if l2norm u = 0 then 1 else l2norm u

/-- `sklearn.metrics.pairwise.cosine_similarity` on two rows:
`normalize(u) ⬝ normalize(v)`. -/
noncomputable def cosine_similarity (u v : List ℝ) : ℝ :=
  dot u v / (sk_norm u * sk_norm v)

/-- `CNNFeatureExtractor.compute_similarity`: `(cos + 1) / 2`, with the
`except Exception` branch (shape mismatch) returning `0.0`. -/
noncomputable def compute_similarity (u v : List ℝ) : ℝ :=
  if u.length = v.length then (cosine_similarity u v + 1) / 2 else 0

theorem dot_self_nonneg (u : List ℝ) : 0 ≤ dot u u := by
  induction u with
  | nil => simp [dot]
  | cons a u ih =>
    simp only [dot, List.zipWith_cons_cons, List.sum_cons] at *
    have := mul_self_nonneg a
    linarith

theorem dot_self_eq_zero {u : List ℝ} (h : dot u u = 0) : ∀ a ∈ u, a = 0 := by
  induction u with
  | nil => simp
  | cons a u ih =>
    simp only [dot, List.zipWith_cons_cons, List.sum_cons] at h
    have h1 := mul_self_nonneg a
    have h2 := dot_self_nonneg u
    simp only [dot] at h2
    have ha : a * a = 0 := by linarith
    have hu : (List.zipWith (· * ·) u u).sum = 0 := by linarith
    intro b hb
    rcases List.mem_cons.mp hb with rfl | hb
    · exact mul_self_eq_zero.mp ha
    · exact ih hu b hb

theorem dot_eq_zero_of_left_zero {u : List ℝ} (h : ∀ a ∈ u, a = 0)
    (v : List ℝ) : dot u v = 0 := by
  induction u generalizing v with
  | nil => simp [dot]
  | cons a u ih =>
    cases v with
    | nil => simp [dot]
    | cons b v =>
      simp only [dot, List.zipWith_cons_cons, List.sum_cons]
      rw [h a (by simp)]
      have := ih (fun x hx => h x (by simp [hx])) v
      simp only [dot] at this
      simp [this]

theorem dot_comm (u v : List ℝ) : dot u v = dot v u := by
  induction u generalizing v with
  | nil => cases v <;> simp [dot]
  | cons a u ih =>
    cases v with
    | nil => simp [dot]
    | cons b v =>
      simp only [dot, List.zipWith_cons_cons, List.sum_cons]
      have := ih v
      simp only [dot] at this
      rw [this, mul_comm]

theorem dot_eq_sum_range {u v : List ℝ} (h : u.length = v.length) :
    dot u v = ∑ i ∈ Finset.range u.length, u.getD i 0 * v.getD i 0 := by
  induction u generalizing v with
  | nil => simp [dot]
  | cons a u ih =>
    cases v with
    | nil => simp at h
    | cons b v =>
      simp only [List.length_cons] at h
      have h' : u.length = v.length := by omega
      simp only [dot, List.zipWith_cons_cons, List.sum_cons, List.length_cons]
      rw [Finset.sum_range_succ']
      simp only [List.getD_cons_succ, List.getD_cons_zero]
      have := ih h'
      simp only [dot] at this
      rw [this]
      ring

theorem dot_sq_le_dot_mul_dot {u v : List ℝ} (h : u.length = v.length) :
    (dot u v) ^ 2 ≤ dot u u * dot v v := by
  rw [dot_eq_sum_range h, dot_eq_sum_range (rfl : u.length = u.length)]
  have hv : dot v v = ∑ i ∈ Finset.range u.length, v.getD i 0 * v.getD i 0 := by
    rw [dot_eq_sum_range (rfl : v.length = v.length), h]
  rw [hv]
  have := Finset.sum_mul_sq_le_sq_mul_sq (Finset.range u.length)
    (fun i => u.getD i 0) (fun i => v.getD i 0)
  calc (∑ i ∈ Finset.range u.length, u.getD i 0 * v.getD i 0) ^ 2
      ≤ (∑ i ∈ Finset.range u.length, u.getD i 0 ^ 2) *
        ∑ i ∈ Finset.range u.length, v.getD i 0 ^ 2 := this
    _ = (∑ i ∈ Finset.range u.length, u.getD i 0 * u.getD i 0) *
        ∑ i ∈ Finset.range u.length, v.getD i 0 * v.getD i 0 := by
        congr 1
        · exact Finset.sum_congr rfl (fun i _ => sq (u.getD i 0) ▸ by ring)
        · exact Finset.sum_congr rfl (fun i _ => by ring)

theorem abs_dot_le {u v : List ℝ} (h : u.length = v.length) :
    |dot u v| ≤ l2norm u * l2norm v := by
  have h1 : |dot u v| = Real.sqrt ((dot u v) ^ 2) := (Real.sqrt_sq_eq_abs _).symm
  rw [h1, l2norm, l2norm, ← Real.sqrt_mul (dot_self_nonneg u)]
  exact Real.sqrt_le_sqrt (dot_sq_le_dot_mul_dot h)

/-- C4 (amended): for feature vectors of matching length,
`compute_similarity` never raises and returns exactly
`(cosine similarity + 1) / 2`, a value in `[0, 1]`; when either vector is
degenerate (zero norm), sklearn's normalize substitutes norm 1, the cosine
evaluates to `0`, and the result is `0.5` — *not* `0.0` as the claim
states (see the counterexample). -/
theorem compute_similarity_range (u v : List ℝ) (h : u.length = v.length) :
    compute_similarity u v = (cosine_similarity u v + 1) / 2 ∧
    0 ≤ compute_similarity u v ∧ compute_similarity u v ≤ 1 ∧
    (dot u u = 0 ∨ dot v v = 0 → compute_similarity u v = 1 / 2) := by
  have hcs : compute_similarity u v = (cosine_similarity u v + 1) / 2 := by
    simp [compute_similarity, h]
  have hdeg : dot u u = 0 ∨ dot v v = 0 → compute_similarity u v = 1 / 2 := by
    intro hd
    have hdot : dot u v = 0 := by
      rcases hd with hd | hd
      · exact dot_eq_zero_of_left_zero (dot_self_eq_zero hd) v
      · rw [dot_comm]
        exact dot_eq_zero_of_left_zero (dot_self_eq_zero hd) u
    rw [hcs, cosine_similarity, hdot]
    norm_num
  refine ⟨hcs, ?_, ?_, hdeg⟩ <;>
  · by_cases hu : dot u u = 0
    · rw [hdeg (Or.inl hu)]; norm_num
    · by_cases hv : dot v v = 0
      · rw [hdeg (Or.inr hv)]; norm_num
      · have hlu : 0 < l2norm u := by
          rw [l2norm]
          exact Real.sqrt_pos.mpr (lt_of_le_of_ne (dot_self_nonneg u) (Ne.symm hu))
        have hlv : 0 < l2norm v := by
          rw [l2norm]
          exact Real.sqrt_pos.mpr (lt_of_le_of_ne (dot_self_nonneg v) (Ne.symm hv))
        have hsku : sk_norm u = l2norm u := by
          rw [sk_norm, if_neg (ne_of_gt hlu)]
        have hskv : sk_norm v = l2norm v := by
          rw [sk_norm, if_neg (ne_of_gt hlv)]
        have habs : |cosine_similarity u v| ≤ 1 := by
          rw [cosine_similarity, hsku, hskv, abs_div]
          rw [abs_of_pos (mul_pos hlu hlv)]
          exact div_le_one_of_le₀ (abs_dot_le h) (le_of_lt (mul_pos hlu hlv))
        obtain ⟨h1, h2⟩ := abs_le.mp habs
        rw [hcs]
        linarith

/-- C4 counterexample: with a degenerate first vector (`[0]`, zero norm)
and `[1]`, the code returns `0.5`, not `0.0`: sklearn's normalize clamps
the zero norm to 1 instead of raising, the cosine is `0`, and
`(0 + 1) / 2 = 0.5`. -/
theorem compute_similarity_degenerate_returns_half :
    compute_similarity [(0 : ℝ)] [1] = 1 / 2 ∧ (1 / 2 : ℝ) ≠ 0 := by
  constructor
  · have hdot : dot [(0 : ℝ)] [1] = 0 := by simp [dot]
    have : compute_similarity [(0 : ℝ)] [1] =
        (cosine_similarity [(0 : ℝ)] [1] + 1) / 2 := by
      simp [compute_similarity]
    rw [this, cosine_similarity, hdot]
    norm_num
  · norm_num

/-- Witness for C4 (amended) at the concrete vectors `[1]` and `[0]`
(second one degenerate): the result is in `[0, 1]` and equals `0.5`. -/
theorem compute_similarity_range_witness :
    ([(1 : ℝ)].length = [(0 : ℝ)].length) ∧
    (0 ≤ compute_similarity [(1 : ℝ)] [0] ∧
      compute_similarity [(1 : ℝ)] [0] ≤ 1 ∧
      compute_similarity [(1 : ℝ)] [0] = 1 / 2) :=
  ⟨rfl,
    (compute_similarity_range [(1 : ℝ)] [0] rfl).2.1,
    (compute_similarity_range [(1 : ℝ)] [0] rfl).2.2.1,
    (compute_similarity_range [(1 : ℝ)] [0] rfl).2.2.2
      (Or.inr (by simp [dot]))⟩
